import Mathlib

/-!
# modem-stats: utils/tools.go

A shallow embedding of the two coordinating functions of `utils/tools.go`:

* `GetHTTPClientWithCertificates` (lines 156-202), the builder of an HTTP client
  whose TLS layer trusts the system roots plus caller supplied PEM certificates;
* `BoundedParallelGet` (lines 86-123), the fetch pool that issues one goroutine
  per URL, throttled by a buffered channel used as a semaphore.

The Go standard library (`crypto/x509`, `crypto/tls`, `net/http`) is not part of
the repository. Its operations are taken as parameters (`X509`, `GetClient`).
-/

namespace ModemStats

/-! ## Trust-extended TLS client builder -/

/-- A Go byte slice. -/
abbrev Bytes := List Nat

/-- The fields of `x509.VerifyOptions` that decide which chains are built: the
expected host name (empty: not checked), the intermediates and the roots. The
defaults are the Go zero values; a nil pool holds no certificate. -/
structure VerifyOptions (Cert : Type) where
  DNSName : String := ""
  Intermediates : List Cert := []
  Roots : List Cert := []

/-- The operations of `crypto/x509` used by the builder, as parameters.
`SystemCertPool` is the pair `(pool, err)` the library call returns, with nil
written `none`; `AppendCertsFromPEM` returns the pool after the call and the
`ok` flag; `Verify` returns the chains or the error. -/
structure X509 (Cert E : Type) where
  SystemCertPool : Option (List Cert) × Option E
  AppendCertsFromPEM : List Cert → Bytes → List Cert × Bool
  ParseCertificate : Bytes → Except E Cert
  Verify : Cert → VerifyOptions Cert → Except E (List (List Cert))

/-- The five errors built with `fmt.Errorf` in `GetHTTPClientWithCertificates`,
one constructor per format string, carrying the wrapped library error. -/
inductive Error (E : Type) where
  /-- Line 159: "failed to get system cert pool: %v". -/
  | systemCertPool (err : E)
  /-- Line 167: "failed to append custom certificate". -/
  | appendCertificate
  /-- Line 176: "no certificates provided". -/
  | noCertificates
  /-- Line 181: "failed to parse certificate: %v". -/
  | parseCertificate (err : E)
  /-- Line 190: "certificate verification failed: %v". -/
  | verification (err : E)
  deriving DecidableEq, Repr

/-- The fields of `tls.Config` set on lines 171-195. -/
structure TLSConfig (Cert E : Type) where
  RootCAs : List Cert
  InsecureSkipVerify : Bool
  VerifyPeerCertificate : List Bytes → List (List Cert) → Option (Error E)

/-- The `http.Transport` of line 198. -/
structure Transport (Cert E : Type) where
  TLSClientConfig : TLSConfig Cert E

/-- The `http.Client` of line 197. -/
structure Client (Cert E : Type) where
  Transport : Transport Cert E

/-- The closure of lines 174-194 over the captured `rootCAs`. -/
def VerifyPeerCertificate {Cert E : Type} (x509 : X509 Cert E) (rootCAs : List Cert)
    (rawCerts : List Bytes) (_verifiedChains : List (List Cert)) : Option (Error E) :=
  match rawCerts with
  | [] => some Error.noCertificates
  | raw0 :: _ =>
    match x509.ParseCertificate raw0 with
    | .error err => some (Error.parseCertificate err)
    | .ok cert =>
      let opts : VerifyOptions Cert := { Roots := rootCAs }
      match x509.Verify cert opts with
      | .error err => some (Error.verification err)
      | .ok _ => none

/-- The loop of lines 165-169: append every blob in turn, give up at the first
blob for which `AppendCertsFromPEM` reports false. -/
def appendCerts {Cert E : Type} (x509 : X509 Cert E) :
    List Cert → List Bytes → Option (List Cert)
  | rootCAs, [] => some rootCAs
  | rootCAs, certPEM :: rest =>
    if !(x509.AppendCertsFromPEM rootCAs certPEM).2 then none
    else appendCerts x509 (x509.AppendCertsFromPEM rootCAs certPEM).1 rest

/-- Lines 161-163: a nil system pool is replaced by `x509.NewCertPool()`, the
pool without certificates. -/
def startPool {Cert : Type} (rootCAs : Option (List Cert)) : List Cert :=
  match rootCAs with
  | none => []
  | some p => p

/-- The function `GetHTTPClientWithCertificates` (lines 156-202). The result is
the Go pair `(*http.Client, error)`. -/
def GetHTTPClientWithCertificates {Cert E : Type} (x509 : X509 Cert E)
    (trustedCertificatesPEM : List Bytes) : Option (Client Cert E) × Option (Error E) :=
  match x509.SystemCertPool.2 with
  | some err => (none, some (Error.systemCertPool err))
  | none =>
    match appendCerts x509 (startPool x509.SystemCertPool.1) trustedCertificatesPEM with
    | none => (none, some Error.appendCertificate)
    | some rootCAs =>
      (some { Transport := { TLSClientConfig :=
          { RootCAs := rootCAs
            InsecureSkipVerify := true
            VerifyPeerCertificate := VerifyPeerCertificate x509 rootCAs } } }, none)

/-- The pool the specification describes: the starting pool extended with the
certificates of every blob, one `AppendCertsFromPEM` per blob. -/
def extendedPool {Cert E : Type} (x509 : X509 Cert E) (base : List Cert)
    (blobs : List Bytes) : List Cert :=
  blobs.foldl (fun pool blob => (x509.AppendCertsFromPEM pool blob).1) base

/-- Parse every presented certificate, as the TLS stack does on receipt of the
certificate message; the first failure is returned. -/
def parseAll {Cert E : Type} (x509 : X509 Cert E) : List Bytes → Except E (List Cert)
  | [] => .ok []
  | raw :: rest =>
    match x509.ParseCertificate raw with
    | .error err => .error err
    | .ok cert =>
      match parseAll x509 rest with
      | .error err => .error err
      | .ok certs => .ok (cert :: certs)

/-- Automatic verification as the specification words it: the leaf is verified
against the pool with the other presented certificates as intermediates and
the server name checked. A handshake without a server name to check is
refused, as `crypto/tls` does when `InsecureSkipVerify` is not set. -/
def automaticVerification {Cert E : Type} (x509 : X509 Cert E) (roots : List Cert)
    (serverName : String) (rawCerts : List Bytes) : Bool :=
  if serverName = "" then false
  else
    match parseAll x509 rawCerts with
    | .ok (leaf :: others) =>
      match x509.Verify leaf
          { DNSName := serverName, Intermediates := others, Roots := roots } with
      | .ok _ => true
      | .error _ => false
    | _ => false

/-- Whether a client accepts a handshake: the presented certificates must parse,
automatic verification runs unless `InsecureSkipVerify` is set, and the
`VerifyPeerCertificate` callback must return nil. With `InsecureSkipVerify`
the callback receives no verified chains. -/
def Client.accepts {Cert E : Type} (x509 : X509 Cert E) (c : Client Cert E)
    (serverName : String) (rawCerts : List Bytes) : Bool :=
  match parseAll x509 rawCerts with
  | .error _ => false
  | .ok _ =>
    (c.Transport.TLSClientConfig.InsecureSkipVerify
      || automaticVerification x509 c.Transport.TLSClientConfig.RootCAs serverName rawCerts)
    && (c.Transport.TLSClientConfig.VerifyPeerCertificate rawCerts []).isNone

/-! ### A small concrete certificate library, to evaluate the builder -/

/-- A certificate reduced to what chain building looks at. -/
structure ToyCert where
  Subject : Nat
  Issuer : Nat
  DNSName : String
  deriving DecidableEq, Repr

/-- Host names of the toy encoding. -/
def toyHost : Nat → String
  | 1 => "modem.local"
  | 2 => "other.example"
  | _ => "unnamed"

/-- Toy DER: three numbers, subject, issuer and host. -/
def toyParse : Bytes → Except String ToyCert
  | [s, i, h] => .ok { Subject := s, Issuer := i, DNSName := toyHost h }
  | _ => .error "malformed certificate"

/-- Toy chain building: the host name is checked when one is requested, and the
issuer must be a root, or an intermediate issued by a root. -/
def toyVerify (cert : ToyCert) (opts : VerifyOptions ToyCert) :
    Except String (List (List ToyCert)) :=
  if opts.DNSName ≠ "" ∧ opts.DNSName ≠ cert.DNSName then .error "host name mismatch"
  else
    match opts.Roots.find? (fun r => r.Subject == cert.Issuer) with
    | some r => .ok [[cert, r]]
    | none =>
      match opts.Intermediates.find? (fun m => m.Subject == cert.Issuer
          && opts.Roots.any (fun r => r.Subject == m.Issuer)) with
      | some m => .ok [[cert, m]]
      | none => .error "unknown authority"

/-- The toy library over a given outcome of the system pool lookup. -/
def toyX509 (sys : Option (List ToyCert) × Option String) : X509 ToyCert String where
  SystemCertPool := sys
  AppendCertsFromPEM := fun pool pem =>
    match toyParse pem with
    | .ok cert => (pool ++ [cert], true)
    | .error _ => (pool, false)
  ParseCertificate := toyParse
  Verify := toyVerify

/-- The system roots of the examples: one authority, subject 10. -/
def toyRoots : List ToyCert := [{ Subject := 10, Issuer := 10, DNSName := "unnamed" }]

/-- A library whose system pool holds `toyRoots`. -/
def toyLib : X509 ToyCert String := toyX509 (some toyRoots, none)

/-- A library whose system pool lookup reports an error. -/
def toyLibNoSystem : X509 ToyCert String := toyX509 (none, some "system roots unavailable")

/-- A library whose system pool lookup yields no pool and no error. -/
def toyLibNilPool : X509 ToyCert String := toyX509 (none, none)

/-- The self-signed certificate of a modem, subject 7, host "modem.local". -/
def modemPEM : Bytes := [7, 7, 1]

/-- The pool after appending `modemPEM` to `toyRoots`. -/
def toyPool : List ToyCert :=
  toyRoots ++ [{ Subject := 7, Issuer := 7, DNSName := "modem.local" }]

/-- The client the builder returns for `toyLib` and `[modemPEM]`. -/
def toyClient : Client ToyCert String :=
  { Transport := { TLSClientConfig :=
      { RootCAs := toyPool
        InsecureSkipVerify := true
        VerifyPeerCertificate := VerifyPeerCertificate toyLib toyPool } } }

/-! ## Bounded fetch pool -/

/-- The part of `http.Response` the pool hands back: status code and body. -/
structure Response where
  StatusCode : Int
  Body : String
  deriving DecidableEq, Repr

/-- The struct `HttpResult` (lines 80-84); a nil `Err` is `none`. -/
structure HttpResult where
  Index : Nat
  Res : Response
  Err : Option String
  deriving DecidableEq, Repr

/-- The pair `(*http.Response, error)` returned by `client.Get`. -/
structure GetReturn where
  res : Option Response
  err : Option String
  deriving DecidableEq, Repr

/-- An `http.Client` as the pool uses it: what `Get` returns for a URL. -/
structure GetClient where
  Get : String → GetReturn

/-- Lines 95-98: the default client unless the caller supplies one. -/
def selectClient (DefaultClient : GetClient) (httpClient : Option GetClient) : GetClient :=
  match httpClient with
  | some c => c
  | none => DefaultClient

/-- The values a goroutine of the pool can panic with. -/
inductive Panic where
  /-- Line 105: `panic(err)`. -/
  | err (e : String)
  /-- Line 107: `*res` with a nil response. -/
  | nilDereference
  /-- Lines 102 and 108: send on a channel closed by the deferred function. -/
  | sendOnClosedChannel
  deriving DecidableEq, Repr

/-- Where the goroutine of lines 101-110 stands. -/
inductive TaskPC where
  /-- Before `semaphoreChan <- struct{}{}` (line 102). -/
  | acquire
  /-- Holding a permit, before the call of line 103. -/
  | call
  /-- Inside `client.Get(url)`. -/
  | inGet
  /-- Holding `result`, before `resultsChan <- result` (line 108). -/
  | publish (result : HttpResult)
  /-- Before `<-semaphoreChan` (line 109). -/
  | release
  /-- Finished. -/
  | done
  deriving DecidableEq, Repr

/-- A goroutine started on line 101 with its arguments `i` and `url`. -/
structure Task where
  i : Nat
  url : String
  pc : TaskPC
  deriving DecidableEq, Repr

/-- Where the calling goroutine stands. -/
inductive MainPC where
  /-- In the loop of line 100, about to handle index `next`. -/
  | spawn (next : Nat)
  /-- Blocked on `<-resultsChan` (line 115). -/
  | receive
  /-- Before the test of line 117. -/
  | check
  /-- Returned (line 122), both channels closed by the deferred function. -/
  | returned
  deriving DecidableEq, Repr

/-- The shared state of one call of `BoundedParallelGet`: `semaphoreChan` is the
number of values buffered in the channel of that name, `results` the slice of
line 113, `panicked` the value of a panic that ended the process. -/
structure PoolState where
  main : MainPC
  tasks : List Task
  semaphoreChan : Nat
  results : List HttpResult
  panicked : Option Panic
  deriving DecidableEq, Repr

/-- The atomic steps a scheduler can pick. -/
inductive Action where
  /-- The caller runs one iteration of line 100, or leaves the loop. -/
  | spawn
  /-- Task `j` sends on `semaphoreChan`. -/
  | acquire (j : Nat)
  /-- Task `j` enters `client.Get`. -/
  | call (j : Nat)
  /-- The call of task `j` returns; lines 104-107 follow. -/
  | getReturns (j : Nat)
  /-- Task `j` sends its result, received and appended by the caller. -/
  | publish (j : Nat)
  /-- The caller runs the test of line 117. -/
  | check
  /-- Task `j` receives from `semaphoreChan`. -/
  | release (j : Nat)
  deriving DecidableEq, Repr

/-- The state on entry, before the loop of line 100. -/
def PoolState.init : PoolState :=
  { main := .spawn 0, tasks := [], semaphoreChan := 0, results := [], panicked := none }

/-- One atomic step of `BoundedParallelGet`; `none` when the action is blocked,
out of place, or the process has panicked. -/
def step (urls : List String) (concurrencyLimit : Nat) (client : GetClient)
    (s : PoolState) (a : Action) : Option PoolState :=
  match s.panicked with
  | some _ => none
  | none =>
    match a with
    | .spawn =>
      match s.main with
      | .spawn i =>
        match urls[i]? with
        | some url =>
          some { s with main := .spawn (i + 1)
                        tasks := s.tasks ++ [{ i := i, url := url, pc := .acquire }] }
        | none => some { s with main := .receive }
      | _ => none
    | .acquire j =>
      match s.tasks[j]? with
      | none => none
      | some t =>
        if t.pc = .acquire then
          if s.main = .returned then some { s with panicked := some .sendOnClosedChannel }
          else if s.semaphoreChan < concurrencyLimit then
            some { s with semaphoreChan := s.semaphoreChan + 1
                          tasks := s.tasks.set j { t with pc := .call } }
          else none
        else none
    | .call j =>
      match s.tasks[j]? with
      | none => none
      | some t =>
        if t.pc = .call then some { s with tasks := s.tasks.set j { t with pc := .inGet } }
        else none
    | .getReturns j =>
      match s.tasks[j]? with
      | none => none
      | some t =>
        if t.pc = .inGet then
          match (client.Get t.url).err with
          | some err => some { s with panicked := some (.err err) }
          | none =>
            match (client.Get t.url).res with
            | none => some { s with panicked := some .nilDereference }
            | some res =>
              let result := HttpResult.mk t.i res (client.Get t.url).err
              some { s with tasks := s.tasks.set j { t with pc := .publish result } }
        else none
    | .publish j =>
      match s.tasks[j]? with
      | none => none
      | some t =>
        match t.pc with
        | .publish result =>
          match s.main with
          | .receive =>
            some { s with main := .check
                          results := s.results ++ [result]
                          tasks := s.tasks.set j { t with pc := .release } }
          | .returned => some { s with panicked := some .sendOnClosedChannel }
          | _ => none
        | _ => none
    | .check =>
      match s.main with
      | .check =>
        if s.results.length = urls.length then some { s with main := .returned }
        else some { s with main := .receive }
      | _ => none
    | .release j =>
      match s.tasks[j]? with
      | none => none
      | some t =>
        if t.pc = .release then
          if 0 < s.semaphoreChan then
            some { s with semaphoreChan := s.semaphoreChan - 1
                          tasks := s.tasks.set j { t with pc := .done } }
          else if s.main = .returned then
            some { s with tasks := s.tasks.set j { t with pc := .done } }
          else none
        else none

/-- Run a schedule, one action after the other; `none` if an action of the
schedule cannot be taken. -/
def exec (urls : List String) (concurrencyLimit : Nat) (client : GetClient) :
    PoolState → List Action → Option PoolState
  | s, [] => some s
  | s, a :: rest =>
    match step urls concurrencyLimit client s a with
    | none => none
    | some s' => exec urls concurrencyLimit client s' rest

/-- The function `BoundedParallelGet` (lines 86-123) under a schedule of its
goroutines: the slice it returns, or `none` if the caller has not returned by
the end of the schedule. -/
def BoundedParallelGet (DefaultClient : GetClient) (urls : List String)
    (concurrencyLimit : Nat) (httpClient : Option GetClient) (schedule : List Action) :
    Option (List HttpResult) :=
  match exec urls concurrencyLimit (selectClient DefaultClient httpClient)
      PoolState.init schedule with
  | none => none
  | some s => if s.main = .returned then some s.results else none

/-- The number of tasks inside `client.Get`: started and not yet returned. -/
def inFlight (s : PoolState) : Nat :=
  s.tasks.countP (fun t => t.pc = .inGet)

/-- Whether a task at this point holds a permit of `semaphoreChan`. -/
def holdsPermit : TaskPC → Bool
  | .call => true
  | .inGet => true
  | .publish _ => true
  | .release => true
  | _ => false

/-- The steps a task at this point still has to take, weighted so that every
step of the pool lowers the total. -/
def taskRemaining : TaskPC → Nat
  | .acquire => 6
  | .call => 5
  | .inGet => 4
  | .publish _ => 3
  | .release => 1
  | .done => 0

/-- The steps the caller still has to take on its own account. -/
def mainRemaining (n : Nat) : MainPC → Nat
  | .spawn i => 7 * (n - i) + 2
  | .receive => 0
  | .check => 1
  | .returned => 0

/-- A bound on the number of steps left from a state. -/
def remaining (urls : List String) (s : PoolState) : Nat :=
  mainRemaining urls.length s.main + (s.tasks.map (fun t => taskRemaining t.pc)).sum
    + (if s.panicked = none then 1 else 0)

/-- The steps of `step` as a relation, one constructor per branch that yields a
state; `step_eq_some_iff` shows that the two agree. -/
inductive Step (urls : List String) (concurrencyLimit : Nat) (client : GetClient) :
    PoolState → Action → PoolState → Prop where
  | spawnTask (s : PoolState) (i : Nat) (url : String) (hp : s.panicked = none)
      (hm : s.main = .spawn i) (hu : urls[i]? = some url) :
      Step urls concurrencyLimit client s .spawn
        { s with main := .spawn (i + 1)
                 tasks := s.tasks ++ [{ i := i, url := url, pc := .acquire }] }
  | spawnEnd (s : PoolState) (i : Nat) (hp : s.panicked = none)
      (hm : s.main = .spawn i) (hu : urls[i]? = none) :
      Step urls concurrencyLimit client s .spawn { s with main := .receive }
  | acquireClosed (s : PoolState) (j : Nat) (t : Task) (hp : s.panicked = none)
      (ht : s.tasks[j]? = some t) (hpc : t.pc = .acquire) (hm : s.main = .returned) :
      Step urls concurrencyLimit client s (.acquire j)
        { s with panicked := some .sendOnClosedChannel }
  | acquire (s : PoolState) (j : Nat) (t : Task) (hp : s.panicked = none)
      (ht : s.tasks[j]? = some t) (hpc : t.pc = .acquire) (hm : ¬ s.main = .returned)
      (hk : s.semaphoreChan < concurrencyLimit) :
      Step urls concurrencyLimit client s (.acquire j)
        { s with semaphoreChan := s.semaphoreChan + 1
                 tasks := s.tasks.set j { t with pc := .call } }
  | call (s : PoolState) (j : Nat) (t : Task) (hp : s.panicked = none)
      (ht : s.tasks[j]? = some t) (hpc : t.pc = .call) :
      Step urls concurrencyLimit client s (.call j)
        { s with tasks := s.tasks.set j { t with pc := .inGet } }
  | getErr (s : PoolState) (j : Nat) (t : Task) (e : String) (hp : s.panicked = none)
      (ht : s.tasks[j]? = some t) (hpc : t.pc = .inGet)
      (he : (client.Get t.url).err = some e) :
      Step urls concurrencyLimit client s (.getReturns j)
        { s with panicked := some (.err e) }
  | getNil (s : PoolState) (j : Nat) (t : Task) (hp : s.panicked = none)
      (ht : s.tasks[j]? = some t) (hpc : t.pc = .inGet)
      (he : (client.Get t.url).err = none) (hr : (client.Get t.url).res = none) :
      Step urls concurrencyLimit client s (.getReturns j)
        { s with panicked := some .nilDereference }
  | getOk (s : PoolState) (j : Nat) (t : Task) (res : Response) (hp : s.panicked = none)
      (ht : s.tasks[j]? = some t) (hpc : t.pc = .inGet)
      (he : (client.Get t.url).err = none) (hr : (client.Get t.url).res = some res) :
      Step urls concurrencyLimit client s (.getReturns j)
        { s with tasks := (s.tasks.set j
            { t with pc := TaskPC.publish (HttpResult.mk t.i res (client.Get t.url).err) }) }
  | publish (s : PoolState) (j : Nat) (t : Task) (result : HttpResult)
      (hp : s.panicked = none) (ht : s.tasks[j]? = some t) (hpc : t.pc = .publish result)
      (hm : s.main = .receive) :
      Step urls concurrencyLimit client s (.publish j)
        { s with main := .check
                 results := s.results ++ [result]
                 tasks := s.tasks.set j { t with pc := .release } }
  | publishClosed (s : PoolState) (j : Nat) (t : Task) (result : HttpResult)
      (hp : s.panicked = none) (ht : s.tasks[j]? = some t) (hpc : t.pc = .publish result)
      (hm : s.main = .returned) :
      Step urls concurrencyLimit client s (.publish j)
        { s with panicked := some .sendOnClosedChannel }
  | checkReturn (s : PoolState) (hp : s.panicked = none) (hm : s.main = .check)
      (hl : s.results.length = urls.length) :
      Step urls concurrencyLimit client s .check { s with main := .returned }
  | checkLoop (s : PoolState) (hp : s.panicked = none) (hm : s.main = .check)
      (hl : ¬ s.results.length = urls.length) :
      Step urls concurrencyLimit client s .check { s with main := .receive }
  | release (s : PoolState) (j : Nat) (t : Task) (hp : s.panicked = none)
      (ht : s.tasks[j]? = some t) (hpc : t.pc = .release) (hs : 0 < s.semaphoreChan) :
      Step urls concurrencyLimit client s (.release j)
        { s with semaphoreChan := s.semaphoreChan - 1
                 tasks := s.tasks.set j { t with pc := .done } }
  | releaseClosed (s : PoolState) (j : Nat) (t : Task) (hp : s.panicked = none)
      (ht : s.tasks[j]? = some t) (hpc : t.pc = .release) (hs : ¬ 0 < s.semaphoreChan)
      (hm : s.main = .returned) :
      Step urls concurrencyLimit client s (.release j)
        { s with tasks := s.tasks.set j { t with pc := .done } }

/-- What a state reached by a schedule satisfies: the tasks carry the
arguments of their index, the channel buffers one value per task between its
send and its receive, and the results collected are those of the tasks that
have published, each the response of its own URL. -/
structure Inv (urls : List String) (concurrencyLimit : Nat) (client : GetClient)
    (s : PoolState) : Prop where
  task_args : ∀ (j : Nat) (t : Task), s.tasks[j]? = some t → t.i = j ∧ urls[j]? = some t.url
  spawning : ∀ i, s.main = .spawn i → s.tasks.length = i ∧ s.results = []
  spawned : (∀ i, s.main ≠ .spawn i) → s.tasks.length = urls.length
  permits : s.semaphoreChan = s.tasks.countP (fun t => holdsPermit t.pc)
  permits_le : s.semaphoreChan ≤ concurrencyLimit
  index_nodup : (s.results.map HttpResult.Index).Nodup
  result_ok : ∀ r ∈ s.results, r.Err = none ∧
    ∃ u, urls[r.Index]? = some u ∧ (client.Get u).res = some r.Res ∧ (client.Get u).err = none
  published : ∀ (j : Nat) (t : Task), s.tasks[j]? = some t →
    ((t.pc = .release ∨ t.pc = .done) ↔ j ∈ s.results.map HttpResult.Index)
  pending : ∀ (j : Nat) (t : Task) (r : HttpResult), s.tasks[j]? = some t → t.pc = .publish r →
    r.Index = j ∧ r.Err = none ∧ (client.Get t.url).res = some r.Res
      ∧ (client.Get t.url).err = none
  receiving : s.main = .receive → s.results.length ≠ urls.length ∨ urls = []
  returned : s.main = .returned → s.results.length = urls.length

/-! ### Concrete clients and schedules, to evaluate the pool -/

/-- A client that answers every URL with status 200 and the URL as body. -/
def okClient : GetClient :=
  { Get := fun url => { res := some { StatusCode := 200, Body := url }, err := none } }

/-- A client that answers every URL with status 404. -/
def notFoundClient : GetClient :=
  { Get := fun _ => { res := some { StatusCode := 404, Body := "not found" }, err := none } }

/-- A client for which "http://b.test/fail" times out and every other URL
answers with status 200. -/
def timeoutClient : GetClient :=
  { Get := fun url =>
      if url = "http://b.test/fail" then { res := none, err := some "timeout" }
      else { res := some { StatusCode := 200, Body := url }, err := none } }

/-- The three URLs of the scenario of the specification. -/
def demoURLs : List String := ["http://a.test/ok", "http://b.test/fail", "http://c.test/ok"]

/-- A schedule that starts the three tasks and has tasks 0 and 1 enter
`client.Get` under two permits. -/
def demoStart : List Action :=
  [.spawn, .spawn, .spawn, .spawn, .acquire 0, .acquire 1, .call 0, .call 1]

/-- A complete schedule for three URLs and two permits; task 1 publishes first. -/
def demoSchedule : List Action :=
  demoStart ++ [.getReturns 1, .getReturns 0, .publish 1, .check, .release 1, .acquire 2,
    .call 2, .getReturns 2, .publish 2, .check, .publish 0, .check, .release 0, .release 2]

/-- A complete schedule for one URL. -/
def soloSchedule : List Action :=
  [.spawn, .spawn, .acquire 0, .call 0, .getReturns 0, .publish 0, .check]

/-! ## Theorems: TLS client builder -/

theorem appendCerts_eq_extendedPool {Cert E : Type} (x509 : X509 Cert E)
    (blobs : List Bytes) (base pool : List Cert)
    (h : appendCerts x509 base blobs = some pool) :
    pool = extendedPool x509 base blobs := by
  induction blobs generalizing base with
  | nil => simpa [appendCerts, extendedPool] using h.symm
  | cons b rest ih =>
    unfold appendCerts at h
    split at h
    · exact absurd h (by simp)
    · simpa [extendedPool] using ih _ h

theorem appendCerts_isSome_iff {Cert E : Type} (x509 : X509 Cert E)
    (blobs : List Bytes) (base : List Cert) :
    (appendCerts x509 base blobs).isSome = true ↔
      ∀ j (h : j < blobs.length),
        (x509.AppendCertsFromPEM (extendedPool x509 base (blobs.take j)) blobs[j]).2 = true := by
  induction blobs generalizing base with
  | nil => simp [appendCerts]
  | cons b rest ih =>
    unfold appendCerts
    constructor
    · intro h j hj
      split at h
      · simp at h
      · rename_i hb
        cases j with
        | zero => simpa [extendedPool] using hb
        | succ j =>
          have := (ih _).1 h j (by simpa using hj)
          simpa [extendedPool] using this
    · intro h
      have h0 := h 0 (by simp)
      simp only [List.take_zero, extendedPool, List.foldl_nil, List.getElem_cons_zero] at h0
      simp only [h0, Bool.not_true, Bool.false_eq_true, if_false]
      refine (ih _).2 ?_
      intro j hj
      have := h (j + 1) (by simpa using hj)
      simpa [extendedPool] using this

theorem build_ok {Cert E : Type} (x509 : X509 Cert E) (pems : List Bytes)
    (c : Client Cert E) (h : (GetHTTPClientWithCertificates x509 pems).1 = some c) :
    x509.SystemCertPool.2 = none ∧
    (GetHTTPClientWithCertificates x509 pems).2 = none ∧
    appendCerts x509 (startPool x509.SystemCertPool.1) pems
      = some (extendedPool x509 (startPool x509.SystemCertPool.1) pems) ∧
    c = { Transport := { TLSClientConfig :=
          { RootCAs := extendedPool x509 (startPool x509.SystemCertPool.1) pems
            InsecureSkipVerify := true
            VerifyPeerCertificate :=
              VerifyPeerCertificate x509
                (extendedPool x509 (startPool x509.SystemCertPool.1) pems) } } } := by
  unfold GetHTTPClientWithCertificates at h ⊢
  cases hs : x509.SystemCertPool.2 with
  | some e => rw [hs] at h; simp at h
  | none =>
    rw [hs] at h
    simp only at h ⊢
    cases ha : appendCerts x509 (startPool x509.SystemCertPool.1) pems with
    | none => rw [ha] at h; simp at h
    | some r =>
      rw [ha] at h
      have hr := appendCerts_eq_extendedPool x509 pems _ _ ha
      subst hr
      simp only [Option.some.injEq] at h
      exact ⟨trivial, rfl, rfl, h.symm⟩

theorem build_err {Cert E : Type} (x509 : X509 Cert E) (pems : List Bytes) (err : E)
    (h : x509.SystemCertPool.2 = some err) :
    GetHTTPClientWithCertificates x509 pems = (none, some (Error.systemCertPool err)) := by
  unfold GetHTTPClientWithCertificates
  rw [h]

theorem build_of_append {Cert E : Type} (x509 : X509 Cert E) (pems : List Bytes)
    (h : x509.SystemCertPool.2 = none) :
    GetHTTPClientWithCertificates x509 pems =
      match appendCerts x509 (startPool x509.SystemCertPool.1) pems with
      | none => (none, some Error.appendCertificate)
      | some rootCAs =>
        (some { Transport := { TLSClientConfig :=
            { RootCAs := rootCAs
              InsecureSkipVerify := true
              VerifyPeerCertificate := VerifyPeerCertificate x509 rootCAs } } }, none) := by
  unfold GetHTTPClientWithCertificates
  rw [h]

theorem appendCerts_eq_none_iff {Cert E : Type} (x509 : X509 Cert E)
    (blobs : List Bytes) (base : List Cert) :
    appendCerts x509 base blobs = none ↔
      ∃ j, ∃ h : j < blobs.length,
        (x509.AppendCertsFromPEM (extendedPool x509 base (blobs.take j)) blobs[j]).2 = false := by
  have h := appendCerts_isSome_iff x509 blobs base
  constructor
  · intro hn
    by_contra hc
    push_neg at hc
    have : (appendCerts x509 base blobs).isSome = true :=
      h.2 (fun j hj => by simpa using hc j hj)
    rw [hn] at this
    simp at this
  · rintro ⟨j, hj, hf⟩
    cases ha : appendCerts x509 base blobs with
    | none => rfl
    | some r =>
      have := h.1 (by rw [ha]; rfl) j hj
      rw [hf] at this
      exact absurd this (by simp)

/-- Claim C4, as amended. When the system pool lookup reports no error and
yields a pool, the builder starts from that pool: if every blob appends it
returns a client, without error, whose RootCAs is the system pool extended
with the blobs, and with no blob it is the system pool itself. When the lookup
reports an error the builder returns that error wrapped as a system pool error
and no client, whatever the blobs. When the lookup reports no error and yields
no pool, the builder starts from the empty pool and goes on: if every blob
appends it returns a client, without error, whose RootCAs is the empty pool
extended with the blobs. -/
theorem GetHTTPClientWithCertificates_system_pool {Cert E : Type} (x509 : X509 Cert E)
    (pems : List Bytes) :
    (∀ sysRoots, x509.SystemCertPool = (some sysRoots, none) →
      (∀ j (h : j < pems.length),
        (x509.AppendCertsFromPEM (extendedPool x509 sysRoots (pems.take j)) pems[j]).2
          = true) →
      ∃ c, GetHTTPClientWithCertificates x509 pems = (some c, none) ∧
        c.Transport.TLSClientConfig.RootCAs = extendedPool x509 sysRoots pems ∧
        (pems = [] → c.Transport.TLSClientConfig.RootCAs = sysRoots)) ∧
    (∀ err, x509.SystemCertPool.2 = some err →
      GetHTTPClientWithCertificates x509 pems = (none, some (Error.systemCertPool err))) ∧
    (x509.SystemCertPool = (none, none) →
      (∀ j (h : j < pems.length),
        (x509.AppendCertsFromPEM (extendedPool x509 [] (pems.take j)) pems[j]).2 = true) →
      ∃ c, GetHTTPClientWithCertificates x509 pems = (some c, none) ∧
        c.Transport.TLSClientConfig.RootCAs = extendedPool x509 [] pems) := by
  have key : ∀ (pool : Option (List Cert)) (base : List Cert),
      x509.SystemCertPool = (pool, none) → startPool pool = base →
      (∀ j (h : j < pems.length),
        (x509.AppendCertsFromPEM (extendedPool x509 base (pems.take j)) pems[j]).2 = true) →
      ∃ c, GetHTTPClientWithCertificates x509 pems = (some c, none) ∧
        c.Transport.TLSClientConfig.RootCAs = extendedPool x509 base pems := by
    intro pool base hs hbase hall
    have h2 : x509.SystemCertPool.2 = none := by rw [hs]
    have h1 : startPool x509.SystemCertPool.1 = base := by rw [hs]; exact hbase
    have hsome := (appendCerts_isSome_iff x509 pems base).2 hall
    rw [build_of_append x509 pems h2, h1]
    cases ha : appendCerts x509 base pems with
    | none => rw [ha] at hsome; simp at hsome
    | some r =>
      have hr := appendCerts_eq_extendedPool x509 pems _ _ ha
      subst hr
      exact ⟨_, rfl, rfl⟩
  refine ⟨?_, fun err h => build_err x509 pems err h, ?_⟩
  · intro sysRoots hs hall
    obtain ⟨c, hc, hroots⟩ := key (some sysRoots) sysRoots hs rfl hall
    refine ⟨c, hc, hroots, ?_⟩
    intro he
    rw [hroots, he]
    rfl
  · intro hs hall
    exact key none [] hs rfl hall

/-- Witness for C4: a lookup that yields the system roots, to which the modem
certificate is appended; and a lookup that yields no pool and no error. -/
theorem GetHTTPClientWithCertificates_system_pool_witness :
    (toyLib.SystemCertPool = (some toyRoots, none) ∧
      ∃ c, GetHTTPClientWithCertificates toyLib [modemPEM] = (some c, none) ∧
        c.Transport.TLSClientConfig.RootCAs
          = [{ Subject := 10, Issuer := 10, DNSName := "unnamed" },
             { Subject := 7, Issuer := 7, DNSName := "modem.local" }]) ∧
    (toyLibNilPool.SystemCertPool = (none, none) ∧
      ∃ c, GetHTTPClientWithCertificates toyLibNilPool [modemPEM] = (some c, none) ∧
        c.Transport.TLSClientConfig.RootCAs
          = [{ Subject := 7, Issuer := 7, DNSName := "modem.local" }]) := by
  have hall : ∀ (lib : X509 ToyCert String) (base : List ToyCert)
      (_ : lib.AppendCertsFromPEM base modemPEM
        = (base ++ [{ Subject := 7, Issuer := 7, DNSName := "modem.local" }], true))
      (j : Nat) (h : j < [modemPEM].length),
      (lib.AppendCertsFromPEM (extendedPool lib base ([modemPEM].take j)) [modemPEM][j]).2
        = true := by
    intro lib base hb j hj
    have : j = 0 := by simpa using hj
    subst this
    simp only [List.take_zero, extendedPool, List.foldl_nil, List.getElem_cons_zero, hb]
  refine ⟨⟨rfl, ?_⟩, ⟨rfl, ?_⟩⟩
  · obtain ⟨c, hc, hroots, -⟩ :=
      (GetHTTPClientWithCertificates_system_pool toyLib [modemPEM]).1 toyRoots rfl
        (hall toyLib toyRoots rfl)
    exact ⟨c, hc, by rw [hroots]; rfl⟩
  · obtain ⟨c, hc, hroots⟩ :=
      (GetHTTPClientWithCertificates_system_pool toyLibNilPool [modemPEM]).2.2 rfl
        (hall toyLibNilPool [] rfl)
    exact ⟨c, hc, by rw [hroots]; rfl⟩

/-- Counterexample to C4 as stated: the lookup reports an error and the builder
fails with it instead of starting from an empty pool. -/
theorem GetHTTPClientWithCertificates_lookup_error_fails :
    toyLibNoSystem.SystemCertPool = (none, some "system roots unavailable") ∧
    (GetHTTPClientWithCertificates toyLibNoSystem []).1 = none ∧
    (GetHTTPClientWithCertificates toyLibNoSystem []).2
      = some (Error.systemCertPool "system roots unavailable") :=
  ⟨rfl, rfl, rfl⟩

/-- Claim C5. Given a system pool lookup without error, the builder returns the
append error and no client if and only if some blob is refused by
`AppendCertsFromPEM` on the pool built from the blobs before it; when every
blob appends it returns a client and a nil error. -/
theorem GetHTTPClientWithCertificates_append_error_iff {Cert E : Type}
    (x509 : X509 Cert E) (pems : List Bytes) (hsys : x509.SystemCertPool.2 = none) :
    (GetHTTPClientWithCertificates x509 pems = (none, some Error.appendCertificate) ↔
      ∃ j, ∃ h : j < pems.length,
        (x509.AppendCertsFromPEM
          (extendedPool x509 (startPool x509.SystemCertPool.1) (pems.take j)) pems[j]).2
          = false) ∧
    ((∀ j (h : j < pems.length),
        (x509.AppendCertsFromPEM
          (extendedPool x509 (startPool x509.SystemCertPool.1) (pems.take j)) pems[j]).2
          = true) →
      ∃ c, GetHTTPClientWithCertificates x509 pems = (some c, none)) := by
  rw [build_of_append x509 pems hsys]
  constructor
  · rw [← appendCerts_eq_none_iff]
    cases ha : appendCerts x509 (startPool x509.SystemCertPool.1) pems with
    | none => simp
    | some r => simp
  · intro hall
    have hsome := (appendCerts_isSome_iff x509 pems _).2 hall
    cases ha : appendCerts x509 (startPool x509.SystemCertPool.1) pems with
    | none => rw [ha] at hsome; simp at hsome
    | some r => exact ⟨_, rfl⟩

/-- Witness for C5: the second of two blobs is malformed. -/
theorem GetHTTPClientWithCertificates_append_error_iff_witness :
    toyLib.SystemCertPool.2 = none ∧
    GetHTTPClientWithCertificates toyLib [modemPEM, [1, 2]]
      = (none, some Error.appendCertificate) :=
  ⟨rfl, (GetHTTPClientWithCertificates_append_error_iff toyLib [modemPEM, [1, 2]] rfl).1.2
    ⟨1, by decide, rfl⟩⟩

theorem VerifyPeerCertificate_eq_none_iff {Cert E : Type} (x509 : X509 Cert E)
    (pool : List Cert) (rawCerts : List Bytes) (vc : List (List Cert)) :
    VerifyPeerCertificate x509 pool rawCerts vc = none ↔
      ∃ raw0 rest cert chains, rawCerts = raw0 :: rest ∧
        x509.ParseCertificate raw0 = .ok cert ∧
        x509.Verify cert { Roots := pool } = .ok chains := by
  unfold VerifyPeerCertificate
  cases rawCerts with
  | nil => simp
  | cons raw0 rest =>
    cases hp : x509.ParseCertificate raw0 with
    | error e => simp [hp]
    | ok cert =>
      cases hv : x509.Verify cert { Roots := pool } with
      | error e => simp [hp, hv]
      | ok chains => simp [hp, hv]

theorem parseAll_cons_ok {Cert E : Type} (x509 : X509 Cert E) (raw0 : Bytes)
    (rest : List Bytes) (certs : List Cert) :
    parseAll x509 (raw0 :: rest) = .ok certs ↔
      ∃ leaf others, certs = leaf :: others ∧ x509.ParseCertificate raw0 = .ok leaf ∧
        parseAll x509 rest = .ok others := by
  rw [parseAll]
  cases hp : x509.ParseCertificate raw0 with
  | error e => simp
  | ok cert =>
    cases hr : parseAll x509 rest with
    | error e => simp
    | ok others =>
      simp only [Except.ok.injEq]
      constructor
      · intro h
        exact ⟨cert, others, h.symm, rfl, rfl⟩
      · rintro ⟨leaf, oth, h1, h2, h3⟩
        rw [h1, h2, h3]

/-- Claim C6. The callback installed by a successful build checks in order: no
certificate gives the no-certificate error; otherwise a first certificate that
does not parse gives the parse error; otherwise a leaf that does not verify
against the extended pool gives the verification error; and the callback
returns nil exactly when the list is not empty, its first certificate parses
and the parsed leaf verifies against the extended pool. -/
theorem VerifyPeerCertificate_check_order {Cert E : Type} (x509 : X509 Cert E)
    (pems : List Bytes) (c : Client Cert E)
    (h : (GetHTTPClientWithCertificates x509 pems).1 = some c)
    (rawCerts : List Bytes) (verifiedChains : List (List Cert)) :
    (rawCerts = [] →
      c.Transport.TLSClientConfig.VerifyPeerCertificate rawCerts verifiedChains
        = some Error.noCertificates) ∧
    (∀ raw0 rest err, rawCerts = raw0 :: rest → x509.ParseCertificate raw0 = .error err →
      c.Transport.TLSClientConfig.VerifyPeerCertificate rawCerts verifiedChains
        = some (Error.parseCertificate err)) ∧
    (∀ raw0 rest cert err, rawCerts = raw0 :: rest → x509.ParseCertificate raw0 = .ok cert →
      x509.Verify cert
          { Roots := extendedPool x509 (startPool x509.SystemCertPool.1) pems } = .error err →
      c.Transport.TLSClientConfig.VerifyPeerCertificate rawCerts verifiedChains
        = some (Error.verification err)) ∧
    (c.Transport.TLSClientConfig.VerifyPeerCertificate rawCerts verifiedChains = none ↔
      ∃ raw0 rest cert chains, rawCerts = raw0 :: rest ∧
        x509.ParseCertificate raw0 = .ok cert ∧
        x509.Verify cert
          { Roots := extendedPool x509 (startPool x509.SystemCertPool.1) pems }
          = .ok chains) := by
  obtain ⟨-, -, -, hc⟩ := build_ok x509 pems c h
  subst hc
  refine ⟨?_, ?_, ?_, ?_⟩
  · intro he
    subst he
    rfl
  · intro raw0 rest err he hp
    subst he
    simp [VerifyPeerCertificate, hp]
  · intro raw0 rest cert err he hp hv
    subst he
    simp [VerifyPeerCertificate, hp, hv]
  · exact VerifyPeerCertificate_eq_none_iff x509 _ rawCerts verifiedChains

/-- Witness for C6: the built client accepts the modem certificate it was given
and reports the three errors in order. -/
theorem VerifyPeerCertificate_check_order_witness :
    (GetHTTPClientWithCertificates toyLib [modemPEM]).1 = some toyClient ∧
    toyClient.Transport.TLSClientConfig.VerifyPeerCertificate [modemPEM] [] = none ∧
    toyClient.Transport.TLSClientConfig.VerifyPeerCertificate [] []
      = some Error.noCertificates :=
  ⟨rfl,
   (VerifyPeerCertificate_check_order toyLib [modemPEM] toyClient rfl [modemPEM] []).2.2.2.2
      ⟨modemPEM, [], _, _, rfl, rfl, rfl⟩,
   (VerifyPeerCertificate_check_order toyLib [modemPEM] toyClient rfl [] []).1 rfl⟩

/-- Claim C7. After a successful build the pool stored as RootCAs is the start
pool (the system roots) extended with every supplied blob, and the callback is
the verification closure over that same pool. With zero blobs the pool is the
system roots themselves, and a leaf that parses but does not verify against
the system roots is rejected with the verification error. -/
theorem GetHTTPClientWithCertificates_trust_pool {Cert E : Type} (x509 : X509 Cert E)
    (pems : List Bytes) (c : Client Cert E)
    (h : (GetHTTPClientWithCertificates x509 pems).1 = some c) :
    c.Transport.TLSClientConfig.RootCAs
      = extendedPool x509 (startPool x509.SystemCertPool.1) pems ∧
    c.Transport.TLSClientConfig.VerifyPeerCertificate
      = VerifyPeerCertificate x509 (extendedPool x509 (startPool x509.SystemCertPool.1) pems) ∧
    (pems = [] → ∀ sysRoots, x509.SystemCertPool.1 = some sysRoots →
      c.Transport.TLSClientConfig.RootCAs = sysRoots ∧
      ∀ raw0 rest cert err vc, x509.ParseCertificate raw0 = .ok cert →
        x509.Verify cert { Roots := sysRoots } = .error err →
        c.Transport.TLSClientConfig.VerifyPeerCertificate (raw0 :: rest) vc
          = some (Error.verification err)) := by
  obtain ⟨-, -, -, hc⟩ := build_ok x509 pems c h
  subst hc
  refine ⟨rfl, rfl, ?_⟩
  intro he sysRoots hs
  subst he
  have hp : extendedPool x509 (startPool x509.SystemCertPool.1) [] = sysRoots := by
    rw [hs]; rfl
  refine ⟨hp, ?_⟩
  intro raw0 rest cert err vc hparse hv
  simp only [hp]
  simp [VerifyPeerCertificate, hparse, hv]

/-- Witness for C7: with zero blobs the pool is the system roots and the modem
certificate, not issued by them, is rejected with the verification error. -/
theorem GetHTTPClientWithCertificates_trust_pool_witness :
    (GetHTTPClientWithCertificates toyLib []).1
      = some { Transport := { TLSClientConfig :=
          { RootCAs := toyRoots
            InsecureSkipVerify := true
            VerifyPeerCertificate := VerifyPeerCertificate toyLib toyRoots } } } ∧
    VerifyPeerCertificate toyLib toyRoots [modemPEM] []
      = some (Error.verification "unknown authority") :=
  ⟨rfl,
   ((GetHTTPClientWithCertificates_trust_pool toyLib [] _ rfl).2.2 rfl toyRoots rfl).2
      modemPEM [] _ _ [] rfl rfl⟩

/-- Counterexample to C8 as stated. The client built for the modem certificate
accepts that certificate under the requested name "other.example", which
automatic verification against the same pool rejects; and it rejects a leaf
issued by a presented intermediate of a system root, which automatic
verification accepts. -/
theorem accepts_differs_from_automaticVerification :
    GetHTTPClientWithCertificates toyLib [modemPEM] = (some toyClient, none) ∧
    (toyClient.accepts toyLib "other.example" [modemPEM] = true ∧
      automaticVerification toyLib toyClient.Transport.TLSClientConfig.RootCAs
        "other.example" [modemPEM] = false) ∧
    (toyClient.accepts toyLib "modem.local" [[30, 20, 1], [20, 10, 0]] = false ∧
      automaticVerification toyLib toyClient.Transport.TLSClientConfig.RootCAs
        "modem.local" [[30, 20, 1], [20, 10, 0]] = true) := by
  refine ⟨rfl, ⟨?_, ?_⟩, ⟨?_, ?_⟩⟩ <;> decide

theorem accepts_built_iff {Cert E : Type} (x509 : X509 Cert E) (pool : List Cert)
    (serverName : String) (rawCerts : List Bytes) :
    Client.accepts x509
        { Transport := { TLSClientConfig :=
            { RootCAs := pool
              InsecureSkipVerify := true
              VerifyPeerCertificate := VerifyPeerCertificate x509 pool } } }
        serverName rawCerts = true ↔
      ∃ leaf others chains, parseAll x509 rawCerts = .ok (leaf :: others) ∧
        x509.Verify leaf { Roots := pool } = .ok chains := by
  unfold Client.accepts
  cases hp : parseAll x509 rawCerts with
  | error e => simp
  | ok certs =>
    simp only [Bool.true_or, Bool.true_and, Option.isNone_iff_eq_none,
      VerifyPeerCertificate_eq_none_iff, Except.ok.injEq]
    constructor
    · rintro ⟨raw0, rest, cert, chains, he, hparse, hv⟩
      subst he
      obtain ⟨leaf, others, hc, hl, -⟩ := (parseAll_cons_ok x509 raw0 rest certs).1 hp
      rw [hparse] at hl
      cases hl
      exact ⟨cert, others, chains, hc, hv⟩
    · rintro ⟨leaf, others, chains, hc, hv⟩
      subst hc
      cases rawCerts with
      | nil => simp [parseAll] at hp
      | cons raw0 rest =>
        obtain ⟨leaf2, others2, hc, hl, -⟩ := (parseAll_cons_ok x509 raw0 rest _).1 hp
        cases hc
        exact ⟨raw0, rest, leaf, chains, rfl, hl, hv⟩

/-- Claim C8, as amended. The callback does not re-implement automatic
verification. The client of a successful build accepts a handshake exactly
when every presented certificate parses and the leaf verifies against the
extended pool with no intermediates and no server name; so the requested
server name has no effect on the outcome. -/
theorem accepts_iff_leaf_verifies {Cert E : Type} (x509 : X509 Cert E)
    (pems : List Bytes) (c : Client Cert E)
    (h : (GetHTTPClientWithCertificates x509 pems).1 = some c) :
    (∀ serverName rawCerts, c.accepts x509 serverName rawCerts = true ↔
      ∃ leaf others chains, parseAll x509 rawCerts = .ok (leaf :: others) ∧
        x509.Verify leaf
          { DNSName := "", Intermediates := [],
            Roots := extendedPool x509 (startPool x509.SystemCertPool.1) pems }
          = .ok chains) ∧
    (∀ name1 name2 rawCerts,
      c.accepts x509 name1 rawCerts = c.accepts x509 name2 rawCerts) := by
  obtain ⟨-, -, -, hc⟩ := build_ok x509 pems c h
  subst hc
  refine ⟨fun serverName rawCerts => accepts_built_iff x509 _ serverName rawCerts, ?_⟩
  intro name1 name2 rawCerts
  rw [Bool.eq_iff_iff, accepts_built_iff, accepts_built_iff]

/-- Witness for C8 as amended: the modem certificate is accepted under the
requested name "other.example", which is not its own. -/
theorem accepts_iff_leaf_verifies_witness :
    (GetHTTPClientWithCertificates toyLib [modemPEM]).1 = some toyClient ∧
    toyClient.accepts toyLib "other.example" [modemPEM] = true :=
  ⟨rfl, ((accepts_iff_leaf_verifies toyLib [modemPEM] toyClient rfl).1
    "other.example" [modemPEM]).2 ⟨_, [], _, rfl, rfl⟩⟩

/-- Claim C9. The callback of a successful build returns the same result for
any two lists with the same first certificate and any verified chains; and it
is unchanged when the library is replaced by one that parses alike and agrees
on verification with no intermediates and no server name, so neither the other
presented certificates nor a server name reach the verification. -/
theorem VerifyPeerCertificate_leaf_only {Cert E : Type} (x509 : X509 Cert E)
    (pems : List Bytes) (c : Client Cert E)
    (h : (GetHTTPClientWithCertificates x509 pems).1 = some c) :
    (∀ raw0 rest1 rest2 vc1 vc2,
      c.Transport.TLSClientConfig.VerifyPeerCertificate (raw0 :: rest1) vc1
        = c.Transport.TLSClientConfig.VerifyPeerCertificate (raw0 :: rest2) vc2) ∧
    (∀ other : X509 Cert E, other.ParseCertificate = x509.ParseCertificate →
      (∀ cert roots,
        other.Verify cert { DNSName := "", Intermediates := [], Roots := roots }
          = x509.Verify cert { DNSName := "", Intermediates := [], Roots := roots }) →
      ∀ rawCerts vc,
        VerifyPeerCertificate other c.Transport.TLSClientConfig.RootCAs rawCerts vc
          = c.Transport.TLSClientConfig.VerifyPeerCertificate rawCerts vc) := by
  obtain ⟨-, -, -, hc⟩ := build_ok x509 pems c h
  subst hc
  refine ⟨fun raw0 rest1 rest2 vc1 vc2 => rfl, ?_⟩
  intro other hparse hverify rawCerts vc
  cases rawCerts with
  | nil => rfl
  | cons raw0 rest =>
    simp only [VerifyPeerCertificate, hparse, hverify]

/-- Witness for C9: the modem certificate followed by different certificates. -/
theorem VerifyPeerCertificate_leaf_only_witness :
    (GetHTTPClientWithCertificates toyLib [modemPEM]).1 = some toyClient ∧
    toyClient.Transport.TLSClientConfig.VerifyPeerCertificate [modemPEM, [20, 10, 0]] []
      = toyClient.Transport.TLSClientConfig.VerifyPeerCertificate [modemPEM] [[]] :=
  ⟨rfl, (VerifyPeerCertificate_leaf_only toyLib [modemPEM] toyClient rfl).1 modemPEM
    [[20, 10, 0]] [] [] [[]]⟩

/-! ## Theorems: bounded fetch pool -/

theorem Step_of_step {urls : List String} {K : Nat} {client : GetClient}
    {s s' : PoolState} {a : Action} (h : step urls K client s a = some s') :
    Step urls K client s a s' := by
  unfold step at h
  repeat' split at h
  all_goals first
    | contradiction
    | (cases h
       constructor <;> assumption)

theorem step_of_Step {urls : List String} {K : Nat} {client : GetClient}
    {s s' : PoolState} {a : Action} (h : Step urls K client s a s') :
    step urls K client s a = some s' := by
  cases h <;> simp [step, *]

theorem step_eq_some_iff {urls : List String} {K : Nat} {client : GetClient}
    {s s' : PoolState} {a : Action} :
    step urls K client s a = some s' ↔ Step urls K client s a s' :=
  ⟨Step_of_step, step_of_Step⟩

theorem getElem?_set_some {α : Type} {l : List α} {j k : Nat} {b x : α}
    (h : (l.set j b)[k]? = some x) :
    (k = j ∧ x = b ∧ j < l.length) ∨ (k ≠ j ∧ l[k]? = some x) := by
  rw [List.getElem?_set] at h
  by_cases hjk : j = k
  · rw [if_pos hjk] at h
    by_cases hlt : j < l.length
    · rw [if_pos hlt] at h
      exact Or.inl ⟨hjk.symm, (Option.some.inj h).symm, hlt⟩
    · rw [if_neg hlt] at h
      exact absurd h (by simp)
  · rw [if_neg hjk] at h
    exact Or.inr ⟨fun e => hjk e.symm, h⟩

theorem countP_set_of_getElem? {α : Type} (p : α → Bool) {l : List α} {j : Nat} {a : α}
    (h : l[j]? = some a) (b : α) :
    (l.set j b).countP p + (if p a then 1 else 0)
      = l.countP p + (if p b then 1 else 0) := by
  induction l generalizing j with
  | nil => simp at h
  | cons x xs ih =>
    cases j with
    | zero =>
      simp only [List.getElem?_cons_zero, Option.some.injEq] at h
      subst h
      simp only [List.set_cons_zero, List.countP_cons]
      omega
    | succ j =>
      simp only [List.getElem?_cons_succ] at h
      have := ih h
      simp only [List.set_cons_succ, List.countP_cons]
      omega

theorem sum_map_set_of_getElem? {α : Type} (f : α → Nat) {l : List α} {j : Nat} {a : α}
    (h : l[j]? = some a) (b : α) :
    ((l.set j b).map f).sum + f a = (l.map f).sum + f b := by
  induction l generalizing j with
  | nil => simp at h
  | cons x xs ih =>
    cases j with
    | zero =>
      simp only [List.getElem?_cons_zero, Option.some.injEq] at h
      subst h
      simp only [List.set_cons_zero, List.map_cons, List.sum_cons]
      omega
    | succ j =>
      simp only [List.getElem?_cons_succ] at h
      have := ih h
      simp only [List.set_cons_succ, List.map_cons, List.sum_cons]
      omega

theorem countP_pos_of_getElem? {α : Type} (p : α → Bool) {l : List α} {j : Nat} {a : α}
    (h : l[j]? = some a) (hp : p a = true) : 0 < l.countP p := by
  rw [List.countP_pos_iff]
  exact ⟨a, List.mem_iff_getElem?.2 ⟨j, h⟩, hp⟩

theorem Inv_init (urls : List String) (K : Nat) (client : GetClient) :
    Inv urls K client PoolState.init where
  task_args := by intro j t h; simp [PoolState.init] at h
  spawning := by
    intro i h
    simp only [PoolState.init, MainPC.spawn.injEq] at h
    subst h
    exact ⟨rfl, rfl⟩
  spawned := by intro h; exact absurd rfl (h 0)
  permits := rfl
  permits_le := Nat.zero_le _
  index_nodup := by simp [PoolState.init]
  result_ok := by intro r hr; simp [PoolState.init] at hr
  published := by intro j t h; simp [PoolState.init] at h
  pending := by intro j t r h; simp [PoolState.init] at h
  receiving := by intro h; simp [PoolState.init] at h
  returned := by intro h; simp [PoolState.init] at h

theorem Inv_tasks_length_le {urls : List String} {K : Nat} {client : GetClient}
    {s : PoolState} (inv : Inv urls K client s) : s.tasks.length ≤ urls.length := by
  by_contra hlt
  push_neg at hlt
  have hget : s.tasks[urls.length]? = some (s.tasks[urls.length]) :=
    List.getElem?_eq_getElem hlt
  have := (inv.task_args _ _ hget).2
  simp at this

/-- A step that only changes `panicked` keeps the invariant. -/
theorem Inv_of_same {urls : List String} {K : Nat} {client : GetClient}
    {s : PoolState} (inv : Inv urls K client s) (p : Option Panic) :
    Inv urls K client { s with panicked := p } :=
  ⟨inv.task_args, inv.spawning, inv.spawned, inv.permits, inv.permits_le, inv.index_nodup,
    inv.result_ok, inv.published, inv.pending, inv.receiving, inv.returned⟩

/-- A step of task `j` that leaves the caller and the results alone keeps the
invariant, provided the channel count follows the permit and the task does not
move in or out of the published points. -/
theorem Inv_task_step {urls : List String} {K : Nat} {client : GetClient}
    {s : PoolState} (inv : Inv urls K client s) {j : Nat} {t : Task}
    (ht : s.tasks[j]? = some t) (pc : TaskPC) (sem : Nat)
    (hsem : sem + (if holdsPermit t.pc then 1 else 0)
      = s.semaphoreChan + (if holdsPermit pc then 1 else 0))
    (hle : sem ≤ K)
    (hpub : (pc = .release ∨ pc = .done) ↔ (t.pc = .release ∨ t.pc = .done))
    (hpend : ∀ r, pc = .publish r →
      r.Index = j ∧ r.Err = none ∧ (client.Get t.url).res = some r.Res
        ∧ (client.Get t.url).err = none) :
    Inv urls K client
      { s with semaphoreChan := sem, tasks := s.tasks.set j { t with pc := pc } } where
  task_args := by
    intro k x hx
    rcases getElem?_set_some hx with ⟨hk, hxe, -⟩ | ⟨-, hx⟩
    · subst hk hxe
      exact inv.task_args k t ht
    · exact inv.task_args _ _ hx
  spawning := by
    intro i hi
    have := inv.spawning i hi
    simpa using this
  spawned := by
    intro hi
    have := inv.spawned hi
    simpa using this
  permits := by
    have h1 := countP_set_of_getElem? (fun t => holdsPermit t.pc) ht { t with pc := pc }
    have h2 := inv.permits
    simp only at h1 ⊢
    omega
  permits_le := hle
  index_nodup := inv.index_nodup
  result_ok := inv.result_ok
  published := by
    intro k x hx
    rcases getElem?_set_some hx with ⟨hk, hxe, -⟩ | ⟨-, hx⟩
    · subst hk hxe
      exact hpub.trans (inv.published k t ht)
    · exact inv.published _ _ hx
  pending := by
    intro k x r hx hr
    rcases getElem?_set_some hx with ⟨hk, hxe, -⟩ | ⟨-, hx⟩
    · subst hk hxe
      exact hpend r hr
    · exact inv.pending _ _ _ hx hr
  receiving := inv.receiving
  returned := inv.returned

theorem Inv_spawnTask {urls : List String} {K : Nat} {client : GetClient}
    {s : PoolState} (inv : Inv urls K client s) {i : Nat} {url : String}
    (hm : s.main = .spawn i) (hu : urls[i]? = some url) :
    Inv urls K client
      { s with main := .spawn (i + 1)
               tasks := s.tasks ++ [{ i := i, url := url, pc := .acquire }] } := by
  obtain ⟨hlen, hres⟩ := inv.spawning i hm
  have hnew : ∀ (k : Nat) (x : Task),
      (s.tasks ++ [({ i := i, url := url, pc := .acquire } : Task)])[k]? = some x →
      s.tasks[k]? = some x ∨ (k = i ∧ x = { i := i, url := url, pc := .acquire }) := by
    intro k x hx
    rw [List.getElem?_append] at hx
    split at hx
    · exact Or.inl hx
    · rename_i hge
      right
      have hk : k - s.tasks.length = 0 := by
        by_contra hne
        obtain ⟨m, hm⟩ := Nat.exists_eq_succ_of_ne_zero hne
        rw [hm] at hx
        simp at hx
      rw [hk] at hx
      simp only [List.getElem?_cons_zero, Option.some.injEq] at hx
      exact ⟨by omega, hx.symm⟩
  refine ⟨?_, ?_, ?_, ?_, inv.permits_le, inv.index_nodup, inv.result_ok, ?_, ?_, ?_, ?_⟩
  · intro k x hx
    rcases hnew k x hx with h | ⟨hk, hxe⟩
    · exact inv.task_args k x h
    · subst hk hxe
      exact ⟨rfl, hu⟩
  · intro i2 hi2
    simp only [MainPC.spawn.injEq] at hi2
    subst hi2
    exact ⟨by simp [hlen], hres⟩
  · intro hne
    exact absurd rfl (hne (i + 1))
  · have := inv.permits
    simp [List.countP_append, holdsPermit, this]
  · intro k x hx
    rcases hnew k x hx with h | ⟨hk, hxe⟩
    · exact inv.published k x h
    · subst hk hxe
      simp [hres]
  · intro k x r hx hr
    rcases hnew k x hx with h | ⟨hk, hxe⟩
    · exact inv.pending k x r h hr
    · subst hk hxe
      simp at hr
  · intro h
    simp at h
  · intro h
    simp at h

theorem Inv_spawnEnd {urls : List String} {K : Nat} {client : GetClient}
    {s : PoolState} (inv : Inv urls K client s) {i : Nat}
    (hm : s.main = .spawn i) (hu : urls[i]? = none) :
    Inv urls K client { s with main := .receive } := by
  obtain ⟨hlen, hres⟩ := inv.spawning i hm
  have hle := Inv_tasks_length_le inv
  have hge : urls.length ≤ i := by simpa using hu
  refine ⟨inv.task_args, ?_, ?_, inv.permits, inv.permits_le, inv.index_nodup, inv.result_ok,
    inv.published, inv.pending, ?_, ?_⟩
  · intro i2 h
    simp at h
  · intro _
    show s.tasks.length = urls.length
    omega
  · intro _
    show s.results.length ≠ urls.length ∨ urls = []
    rw [hres]
    by_cases h0 : urls = []
    · exact Or.inr h0
    · left
      have : urls.length ≠ 0 := fun h => h0 (List.length_eq_zero.1 h)
      simpa using this.symm
  · intro h
    simp at h

theorem Inv_publish {urls : List String} {K : Nat} {client : GetClient}
    {s : PoolState} (inv : Inv urls K client s) {j : Nat} {t : Task} {result : HttpResult}
    (ht : s.tasks[j]? = some t) (hpc : t.pc = .publish result) (hm : s.main = .receive) :
    Inv urls K client
      { s with main := .check
               results := s.results ++ [result]
               tasks := s.tasks.set j { t with pc := .release } } := by
  obtain ⟨hidx, herr, hres, hgerr⟩ := inv.pending j t result ht hpc
  have hnot : j ∉ s.results.map HttpResult.Index := by
    intro hmem
    have := (inv.published j t ht).2 hmem
    rw [hpc] at this
    simp at this
  refine ⟨?_, ?_, ?_, ?_, inv.permits_le, ?_, ?_, ?_, ?_, ?_, ?_⟩
  · intro k x hx
    rcases getElem?_set_some hx with ⟨hk, hxe, -⟩ | ⟨-, hx⟩
    · subst hk hxe
      exact inv.task_args k t ht
    · exact inv.task_args _ _ hx
  · intro i h
    simp at h
  · intro _
    have := inv.spawned (by intro i; rw [hm]; simp)
    simpa using this
  · have h1 := countP_set_of_getElem? (fun t => holdsPermit t.pc) ht { t with pc := .release }
    have e1 : holdsPermit t.pc = true := by rw [hpc]; rfl
    have e2 : holdsPermit TaskPC.release = true := rfl
    simp only [e1, e2, if_true] at h1
    have h2 := inv.permits
    show s.semaphoreChan
      = List.countP (fun t => holdsPermit t.pc) (s.tasks.set j { t with pc := .release })
    omega
  · show ((s.results ++ [result]).map HttpResult.Index).Nodup
    rw [List.map_append, List.nodup_append]
    refine ⟨inv.index_nodup, by simp, ?_⟩
    intro a ha hb
    simp only [List.map_cons, List.map_nil, List.mem_singleton] at hb
    rw [hb, hidx] at ha
    exact hnot ha
  · intro r hr
    have hr2 : r ∈ s.results ∨ r = result := by
      have : r ∈ s.results ++ [result] := hr
      simpa using this
    rcases hr2 with h | h
    · exact inv.result_ok r h
    · subst h
      exact ⟨herr, t.url, by rw [hidx]; exact (inv.task_args j t ht).2, hres, hgerr⟩
  · intro k x hx
    show _ ↔ k ∈ (s.results ++ [result]).map HttpResult.Index
    rw [List.map_append, List.mem_append]
    simp only [List.map_cons, List.map_nil, List.mem_singleton, hidx]
    rcases getElem?_set_some hx with ⟨hk, hxe, -⟩ | ⟨hk, hx⟩
    · subst hk hxe
      simp
    · have := inv.published k x hx
      constructor
      · intro h
        exact Or.inl (this.1 h)
      · rintro (h | h)
        · exact this.2 h
        · exact absurd h hk
  · intro k x r hx hr
    rcases getElem?_set_some hx with ⟨hk, hxe, -⟩ | ⟨-, hx⟩
    · subst hk hxe
      simp at hr
    · exact inv.pending _ _ _ hx hr
  · intro h
    simp at h
  · intro h
    simp at h

/-- Every step keeps the invariant. -/
theorem Inv_Step {urls : List String} {K : Nat} {client : GetClient}
    {s s' : PoolState} {a : Action} (inv : Inv urls K client s)
    (h : Step urls K client s a s') : Inv urls K client s' := by
  cases h with
  | spawnTask i url hp hm hu => exact Inv_spawnTask inv hm hu
  | spawnEnd i hp hm hu => exact Inv_spawnEnd inv hm hu
  | acquireClosed j t hp ht hpc hm => exact Inv_of_same inv _
  | acquire j t hp ht hpc hm hk =>
    exact Inv_task_step inv ht .call (s.semaphoreChan + 1)
      (by simp [hpc, holdsPermit]) hk (by simp [hpc]) (by intro r hr; simp at hr)
  | call j t hp ht hpc =>
    exact Inv_task_step inv ht .inGet s.semaphoreChan
      (by simp [hpc, holdsPermit]) inv.permits_le (by simp [hpc]) (by intro r hr; simp at hr)
  | getErr j t e hp ht hpc he => exact Inv_of_same inv _
  | getNil j t hp ht hpc he hr => exact Inv_of_same inv _
  | getOk j t res hp ht hpc he hr =>
    refine Inv_task_step inv ht _ s.semaphoreChan
      (by simp [hpc, holdsPermit]) inv.permits_le (by simp [hpc]) ?_
    intro r hreq
    simp only [TaskPC.publish.injEq] at hreq
    subst hreq
    exact ⟨(inv.task_args j t ht).1, he, hr, he⟩
  | publish j t result hp ht hpc hm => exact Inv_publish inv ht hpc hm
  | publishClosed j t result hp ht hpc hm => exact Inv_of_same inv _
  | checkReturn hp hm hl =>
    refine ⟨inv.task_args, ?_, ?_, inv.permits, inv.permits_le, inv.index_nodup,
      inv.result_ok, inv.published, inv.pending, ?_, ?_⟩
    · intro i h
      simp at h
    · intro _
      exact inv.spawned (by intro i; rw [hm]; simp)
    · intro h
      simp at h
    · intro _
      exact hl
  | checkLoop hp hm hl =>
    refine ⟨inv.task_args, ?_, ?_, inv.permits, inv.permits_le, inv.index_nodup,
      inv.result_ok, inv.published, inv.pending, ?_, ?_⟩
    · intro i h
      simp at h
    · intro _
      exact inv.spawned (by intro i; rw [hm]; simp)
    · intro _
      exact Or.inl hl
    · intro h
      simp at h
  | release j t hp ht hpc hs =>
    exact Inv_task_step inv ht .done (s.semaphoreChan - 1)
      (by simp [hpc, holdsPermit]; omega) (by have := inv.permits_le; omega)
      (by simp [hpc]) (by intro r hr; simp at hr)
  | releaseClosed j t hp ht hpc hs hm =>
    exfalso
    have hpos := countP_pos_of_getElem? (fun t => holdsPermit t.pc) ht
      (by simp [hpc, holdsPermit])
    have := inv.permits
    omega

/-- Every state a schedule reaches from the entry state satisfies the invariant. -/
theorem Inv_exec {urls : List String} {K : Nat} {client : GetClient}
    (schedule : List Action) {s s' : PoolState} (inv : Inv urls K client s)
    (h : exec urls K client s schedule = some s') : Inv urls K client s' := by
  induction schedule generalizing s with
  | nil =>
    simp only [exec, Option.some.injEq] at h
    subst h
    exact inv
  | cons a rest ih =>
    unfold exec at h
    cases hs : step urls K client s a with
    | none => rw [hs] at h; simp at h
    | some mid =>
      rw [hs] at h
      exact ih (Inv_Step inv (Step_of_step hs)) h

theorem Inv_index_lt {urls : List String} {K : Nat} {client : GetClient}
    {s : PoolState} (inv : Inv urls K client s) :
    ∀ i ∈ s.results.map HttpResult.Index, i < urls.length := by
  intro i hi
  obtain ⟨r, hr, rfl⟩ := List.mem_map.1 hi
  obtain ⟨-, u, hu, -⟩ := inv.result_ok r hr
  by_contra hge
  rw [List.getElem?_eq_none (by omega)] at hu
  exact absurd hu (by simp)

theorem Inv_results_subperm {urls : List String} {K : Nat} {client : GetClient}
    {s : PoolState} (inv : Inv urls K client s) :
    List.Subperm (s.results.map HttpResult.Index) (List.range urls.length) :=
  List.subperm_of_subset inv.index_nodup
    (fun i hi => List.mem_range.2 (Inv_index_lt inv i hi))

theorem Inv_results_length_le {urls : List String} {K : Nat} {client : GetClient}
    {s : PoolState} (inv : Inv urls K client s) : s.results.length ≤ urls.length := by
  have := (Inv_results_subperm inv).length_le
  simpa using this

/-- The list a returned caller holds: one result per index, each the response
of its own URL and without error. -/
theorem Inv_returned {urls : List String} {K : Nat} {client : GetClient}
    {s : PoolState} (inv : Inv urls K client s) (hm : s.main = .returned) :
    s.results.length = urls.length ∧
    (s.results.map HttpResult.Index).Perm (List.range urls.length) ∧
    ∀ r ∈ s.results, r.Err = none ∧
      ∃ u, urls[r.Index]? = some u ∧ client.Get u = { res := some r.Res, err := none } := by
  have hlen := inv.returned hm
  refine ⟨hlen, ?_, ?_⟩
  · exact (Inv_results_subperm inv).perm_of_length_le (by simp [hlen])
  · intro r hr
    obtain ⟨herr, u, hu, hres, hgerr⟩ := inv.result_ok r hr
    refine ⟨herr, u, hu, ?_⟩
    cases hg : client.Get u with
    | mk res err =>
      rw [hg] at hres hgerr
      simp only at hres hgerr
      rw [hres, hgerr]

theorem Inv_all_published {urls : List String} {K : Nat} {client : GetClient}
    {s : PoolState} (inv : Inv urls K client s) (hm : s.main = .returned)
    (j : Nat) (t : Task) (ht : s.tasks[j]? = some t) :
    t.pc = .release ∨ t.pc = .done := by
  have hj : j < urls.length := by
    by_contra hge
    have := (inv.task_args j t ht).2
    rw [List.getElem?_eq_none (by omega)] at this
    exact absurd this (by simp)
  have hperm := (Inv_returned inv hm).2.1
  exact (inv.published j t ht).2 (hperm.mem_iff.2 (List.mem_range.2 hj))

/-- A call that failed keeps the caller from ever returning. -/
theorem Inv_not_returned_of_error {urls : List String} {K : Nat} {client : GetClient}
    {s : PoolState} (inv : Inv urls K client s) {i : Nat} {u : String} {e : String}
    (hu : urls[i]? = some u) (he : (client.Get u).err = some e) :
    s.main ≠ .returned := by
  intro hm
  have hi : i < urls.length := by
    by_contra hge
    rw [List.getElem?_eq_none (by omega)] at hu
    exact absurd hu (by simp)
  obtain ⟨-, hperm, hres⟩ := Inv_returned inv hm
  have hmem : i ∈ s.results.map HttpResult.Index := hperm.mem_iff.2 (List.mem_range.2 hi)
  obtain ⟨r, hr, hri⟩ := List.mem_map.1 hmem
  obtain ⟨-, u2, hu2, hget⟩ := hres r hr
  rw [hri, hu] at hu2
  cases hu2
  rw [hget] at he
  exact absurd he (by simp)

theorem inFlight_le_semaphoreChan {urls : List String} {K : Nat} {client : GetClient}
    {s : PoolState} (inv : Inv urls K client s) : inFlight s ≤ s.semaphoreChan := by
  rw [inv.permits]
  unfold inFlight
  apply List.countP_mono_left
  intro t _ ht
  have : t.pc = .inGet := by simpa using ht
  rw [this]
  rfl

theorem taskRemaining_set {tasks : List Task} {j : Nat} {t : Task}
    (ht : tasks[j]? = some t) (pc : TaskPC) (m n : Nat)
    (hm : taskRemaining t.pc = m) (hn : taskRemaining pc = n) :
    ((tasks.set j { t with pc := pc }).map (fun t => taskRemaining t.pc)).sum + m
      = (tasks.map (fun t => taskRemaining t.pc)).sum + n := by
  subst hm hn
  exact sum_map_set_of_getElem? (fun t => taskRemaining t.pc) ht { t with pc := pc }

/-- Every step lowers `remaining`. -/
theorem remaining_Step {urls : List String} {K : Nat} {client : GetClient}
    {s s' : PoolState} {a : Action} (h : Step urls K client s a s') :
    remaining urls s' < remaining urls s := by
  cases h with
  | spawnTask i url hp hm hu =>
    have hi : i < urls.length := by
      by_contra hge
      rw [List.getElem?_eq_none (by omega)] at hu
      exact absurd hu (by simp)
    simp only [remaining, hm, mainRemaining, List.map_append, List.sum_append, List.map_cons,
      List.map_nil, List.sum_cons, List.sum_nil, taskRemaining]
    omega
  | spawnEnd i hp hm hu =>
    simp only [remaining, hm, mainRemaining]
    omega
  | acquireClosed j t hp ht hpc hm => simp [remaining, hp]
  | acquire j t hp ht hpc hm hk =>
    have := taskRemaining_set ht .call 6 5 (by rw [hpc]; rfl) rfl
    simp only [remaining]
    omega
  | call j t hp ht hpc =>
    have := taskRemaining_set ht .inGet 5 4 (by rw [hpc]; rfl) rfl
    simp only [remaining]
    omega
  | getErr j t e hp ht hpc he => simp [remaining, hp]
  | getNil j t hp ht hpc he hr => simp [remaining, hp]
  | getOk j t res hp ht hpc he hr =>
    have := taskRemaining_set ht
      (.publish (HttpResult.mk t.i res (client.Get t.url).err)) 4 3 (by rw [hpc]; rfl) rfl
    simp only [remaining]
    omega
  | publish j t result hp ht hpc hm =>
    have := taskRemaining_set ht .release 3 1 (by rw [hpc]; rfl) rfl
    simp only [remaining, hm, mainRemaining]
    omega
  | publishClosed j t result hp ht hpc hm => simp [remaining, hp]
  | checkReturn hp hm hl =>
    simp only [remaining, hm, mainRemaining]
    omega
  | checkLoop hp hm hl =>
    simp only [remaining, hm, mainRemaining]
    omega
  | release j t hp ht hpc hs =>
    have := taskRemaining_set ht .done 1 0 (by rw [hpc]; rfl) rfl
    simp only [remaining]
    omega
  | releaseClosed j t hp ht hpc hs hm =>
    have := taskRemaining_set ht .done 1 0 (by rw [hpc]; rfl) rfl
    simp only [remaining]
    omega

/-- A schedule that can be run is no longer than `remaining` allows. -/
theorem exec_length_le {urls : List String} {K : Nat} {client : GetClient}
    (schedule : List Action) {s s' : PoolState}
    (h : exec urls K client s schedule = some s') :
    schedule.length + remaining urls s' ≤ remaining urls s := by
  induction schedule generalizing s with
  | nil =>
    simp only [exec, Option.some.injEq] at h
    subst h
    simp
  | cons a rest ih =>
    unfold exec at h
    cases hs : step urls K client s a with
    | none => rw [hs] at h; simp at h
    | some mid =>
      rw [hs] at h
      have h1 := ih h
      have h2 := remaining_Step (Step_of_step hs)
      simp only [List.length_cons]
      omega

/-- With at least one URL and one permit, a state that has neither panicked nor
returned can take a step: the pool does not deadlock. -/
theorem Inv_progress {urls : List String} {K : Nat} {client : GetClient}
    {s : PoolState} (inv : Inv urls K client s) (hp : s.panicked = none)
    (hm : s.main ≠ .returned) (hN : urls ≠ []) (hK : 1 ≤ K) :
    ∃ a s', step urls K client s a = some s' := by
  cases hmain : s.main with
  | spawn i =>
    cases hu : urls[i]? with
    | none => exact ⟨.spawn, _, step_of_Step (Step.spawnEnd s i hp hmain hu)⟩
    | some url => exact ⟨.spawn, _, step_of_Step (Step.spawnTask s i url hp hmain hu)⟩
  | check =>
    by_cases hl : s.results.length = urls.length
    · exact ⟨.check, _, step_of_Step (Step.checkReturn s hp hmain hl)⟩
    · exact ⟨.check, _, step_of_Step (Step.checkLoop s hp hmain hl)⟩
  | returned => exact absurd hmain hm
  | receive =>
    by_cases hh : 0 < s.tasks.countP (fun t => holdsPermit t.pc)
    · obtain ⟨t, hmem, hholds⟩ := List.countP_pos_iff.1 hh
      obtain ⟨j, ht⟩ := List.mem_iff_getElem?.1 hmem
      have hsem : 0 < s.semaphoreChan := by rw [inv.permits]; exact hh
      cases hpc : t.pc with
      | acquire => rw [hpc] at hholds; exact absurd hholds (by simp [holdsPermit])
      | done => rw [hpc] at hholds; exact absurd hholds (by simp [holdsPermit])
      | call => exact ⟨.call j, _, step_of_Step (Step.call s j t hp ht hpc)⟩
      | inGet =>
        cases he : (client.Get t.url).err with
        | some e => exact ⟨.getReturns j, _, step_of_Step (Step.getErr s j t e hp ht hpc he)⟩
        | none =>
          cases hr : (client.Get t.url).res with
          | none => exact ⟨.getReturns j, _, step_of_Step (Step.getNil s j t hp ht hpc he hr)⟩
          | some res =>
            exact ⟨.getReturns j, _, step_of_Step (Step.getOk s j t res hp ht hpc he hr)⟩
      | publish r => exact ⟨.publish j, _, step_of_Step (Step.publish s j t r hp ht hpc hmain)⟩
      | release => exact ⟨.release j, _, step_of_Step (Step.release s j t hp ht hpc hsem)⟩
    · have hzero : s.tasks.countP (fun t => holdsPermit t.pc) = 0 := by omega
      have hsem : s.semaphoreChan = 0 := by rw [inv.permits]; exact hzero
      by_cases ha : ∃ t ∈ s.tasks, t.pc = .acquire
      · obtain ⟨t, hmem, hpc⟩ := ha
        obtain ⟨j, ht⟩ := List.mem_iff_getElem?.1 hmem
        exact ⟨.acquire j, _, step_of_Step
          (Step.acquire s j t hp ht hpc (by rw [hmain]; simp) (by omega))⟩
      · exfalso
        push_neg at ha
        have hall : ∀ t ∈ s.tasks, t.pc = .done := by
          intro t hmem
          have hnh := List.countP_eq_zero.1 hzero t hmem
          have hna := ha t hmem
          cases hpc : t.pc with
          | done => rfl
          | acquire => exact absurd hpc hna
          | call => rw [hpc] at hnh; exact absurd rfl hnh
          | inGet => rw [hpc] at hnh; exact absurd rfl hnh
          | publish r => rw [hpc] at hnh; exact absurd rfl hnh
          | release => rw [hpc] at hnh; exact absurd rfl hnh
        have hlen := inv.spawned (by intro i; rw [hmain]; simp)
        have hsub : List.Subperm (List.range urls.length)
            (s.results.map HttpResult.Index) := by
          apply List.subperm_of_subset (List.nodup_range _)
          intro i hi
          have hi2 : i < s.tasks.length := by rw [hlen]; exact List.mem_range.1 hi
          have hget : s.tasks[i]? = some (s.tasks[i]) := List.getElem?_eq_getElem hi2
          exact (inv.published i _ hget).1
            (Or.inr (hall _ (List.mem_iff_getElem?.2 ⟨i, hget⟩)))
        have h1 := hsub.length_le
        have h2 := Inv_results_length_le inv
        simp only [List.length_range, List.length_map] at h1
        rcases inv.receiving hmain with h | h
        · exact h (by omega)
        · exact hN h

theorem mem_of_getElem?_urls {urls : List String} {j : Nat} {u : String}
    (h : urls[j]? = some u) : u ∈ urls :=
  List.mem_iff_getElem?.2 ⟨j, h⟩

/-- When every call succeeds no step panics. -/
theorem Step_no_panic {urls : List String} {K : Nat} {client : GetClient}
    {s s' : PoolState} {a : Action} (inv : Inv urls K client s)
    (hok : ∀ u ∈ urls, ∃ res, client.Get u = { res := some res, err := none })
    (h : Step urls K client s a s') : s'.panicked = none := by
  cases h with
  | spawnTask i url hp hm hu => exact hp
  | spawnEnd i hp hm hu => exact hp
  | acquireClosed j t hp ht hpc hm =>
    rcases Inv_all_published inv hm j t ht with h | h <;> rw [hpc] at h <;> simp at h
  | acquire j t hp ht hpc hm hk => exact hp
  | call j t hp ht hpc => exact hp
  | getErr j t e hp ht hpc he =>
    obtain ⟨res, hres⟩ := hok t.url (mem_of_getElem?_urls (inv.task_args j t ht).2)
    rw [hres] at he
    simp at he
  | getNil j t hp ht hpc he hr =>
    obtain ⟨res, hres⟩ := hok t.url (mem_of_getElem?_urls (inv.task_args j t ht).2)
    rw [hres] at hr
    simp at hr
  | getOk j t res hp ht hpc he hr => exact hp
  | publish j t result hp ht hpc hm => exact hp
  | publishClosed j t result hp ht hpc hm =>
    rcases Inv_all_published inv hm j t ht with h | h <;> rw [hpc] at h <;> simp at h
  | checkReturn hp hm hl => exact hp
  | checkLoop hp hm hl => exact hp
  | release j t hp ht hpc hs => exact hp
  | releaseClosed j t hp ht hpc hs hm => exact hp

theorem exec_no_panic {urls : List String} {K : Nat} {client : GetClient}
    (hok : ∀ u ∈ urls, ∃ res, client.Get u = { res := some res, err := none })
    (schedule : List Action) {s s' : PoolState} (inv : Inv urls K client s)
    (hp : s.panicked = none) (h : exec urls K client s schedule = some s') :
    s'.panicked = none := by
  induction schedule generalizing s with
  | nil =>
    simp only [exec, Option.some.injEq] at h
    subst h
    exact hp
  | cons a rest ih =>
    unfold exec at h
    cases hs : step urls K client s a with
    | none => rw [hs] at h; simp at h
    | some mid =>
      rw [hs] at h
      have hstep := Step_of_step hs
      exact ih (Inv_Step inv hstep) (Step_no_panic inv hok hstep) h

/-- When the call of index `i` fails with `e` and every other call succeeds, the
only panic a step can raise is `panic(err)` with that error. -/
theorem Step_panic_value {urls : List String} {K : Nat} {client : GetClient}
    {s s' : PoolState} {a : Action} (inv : Inv urls K client s)
    {i : Nat} {u e : String} (hu : urls[i]? = some u) (he : (client.Get u).err = some e)
    (hothers : ∀ j v, j ≠ i → urls[j]? = some v →
      ∃ res, client.Get v = { res := some res, err := none })
    (h : Step urls K client s a s') :
    s'.panicked = none ∨ s'.panicked = some (.err e) := by
  have hnr := Inv_not_returned_of_error inv hu he
  cases h with
  | spawnTask i url hp hm hu => exact Or.inl hp
  | spawnEnd i hp hm hu => exact Or.inl hp
  | acquireClosed j t hp ht hpc hm => exact absurd hm hnr
  | acquire j t hp ht hpc hm hk => exact Or.inl hp
  | call j t hp ht hpc => exact Or.inl hp
  | getErr j t e2 hp ht hpc he2 =>
    right
    have hurl := (inv.task_args j t ht).2
    by_cases hji : j = i
    · subst hji
      rw [hu] at hurl
      cases hurl
      rw [he] at he2
      cases he2
      rfl
    · obtain ⟨res, hres⟩ := hothers j t.url hji hurl
      rw [hres] at he2
      simp at he2
  | getNil j t hp ht hpc he2 hr =>
    exfalso
    have hurl := (inv.task_args j t ht).2
    by_cases hji : j = i
    · subst hji
      rw [hu] at hurl
      cases hurl
      rw [he] at he2
      simp at he2
    · obtain ⟨res, hres⟩ := hothers j t.url hji hurl
      rw [hres] at hr
      simp at hr
  | getOk j t res hp ht hpc he hr => exact Or.inl hp
  | publish j t result hp ht hpc hm => exact Or.inl hp
  | publishClosed j t result hp ht hpc hm => exact absurd hm hnr
  | checkReturn hp hm hl => exact Or.inl hp
  | checkLoop hp hm hl => exact Or.inl hp
  | release j t hp ht hpc hs => exact Or.inl hp
  | releaseClosed j t hp ht hpc hs hm => exact Or.inl hp

theorem exec_panic_value {urls : List String} {K : Nat} {client : GetClient}
    {i : Nat} {u e : String} (hu : urls[i]? = some u) (he : (client.Get u).err = some e)
    (hothers : ∀ j v, j ≠ i → urls[j]? = some v →
      ∃ res, client.Get v = { res := some res, err := none })
    (schedule : List Action) {s s' : PoolState} (inv : Inv urls K client s)
    (hp : s.panicked = none ∨ s.panicked = some (.err e))
    (h : exec urls K client s schedule = some s') :
    s'.panicked = none ∨ s'.panicked = some (.err e) := by
  induction schedule generalizing s with
  | nil =>
    simp only [exec, Option.some.injEq] at h
    subst h
    exact hp
  | cons a rest ih =>
    unfold exec at h
    cases hs : step urls K client s a with
    | none => rw [hs] at h; simp at h
    | some mid =>
      rw [hs] at h
      have hstep := Step_of_step hs
      exact ih (Inv_Step inv hstep) (Step_panic_value inv hu he hothers hstep) h

/-- From a state that has neither panicked nor returned, and cannot panic, some
schedule leads the caller to return. -/
theorem exec_reaches_returned {urls : List String} {K : Nat} {client : GetClient}
    (hok : ∀ u ∈ urls, ∃ res, client.Get u = { res := some res, err := none })
    (hN : urls ≠ []) (hK : 1 ≤ K) (n : Nat) :
    ∀ s : PoolState, Inv urls K client s → s.panicked = none → remaining urls s ≤ n →
      ∃ schedule s', exec urls K client s schedule = some s' ∧ s'.main = .returned := by
  induction n with
  | zero =>
    intro s inv hp hn
    simp [remaining, hp] at hn
  | succ n ih =>
    intro s inv hp hn
    by_cases hm : s.main = .returned
    · exact ⟨[], s, rfl, hm⟩
    · obtain ⟨a, mid, hstep⟩ := Inv_progress inv hp hm hN hK
      have hS := Step_of_step hstep
      have hlt := remaining_Step hS
      obtain ⟨σ, s', hex, hret⟩ :=
        ih mid (Inv_Step inv hS) (Step_no_panic inv hok hS) (by omega)
      refine ⟨a :: σ, s', ?_, hret⟩
      simp only [exec, hstep]
      exact hex

theorem remaining_init (urls : List String) :
    remaining urls PoolState.init = 7 * urls.length + 3 := by
  simp [remaining, PoolState.init, mainRemaining]

theorem BoundedParallelGet_eq_some_iff {DefaultClient : GetClient} {urls : List String}
    {K : Nat} {httpClient : Option GetClient} {schedule : List Action}
    {results : List HttpResult} :
    BoundedParallelGet DefaultClient urls K httpClient schedule = some results ↔
      ∃ s, exec urls K (selectClient DefaultClient httpClient) PoolState.init schedule = some s
        ∧ s.main = .returned ∧ s.results = results := by
  unfold BoundedParallelGet
  cases hex : exec urls K (selectClient DefaultClient httpClient) PoolState.init schedule with
  | none => simp
  | some s =>
    by_cases hm : s.main = .returned
    · simp [hm]
    · simp [hm]

/-- With no URL the caller blocks on line 115 for ever: no task exists that
could send a result. -/
theorem exec_empty_not_returned {K : Nat} {client : GetClient}
    (schedule : List Action) {s s' : PoolState}
    (hs : s.tasks = [] ∧ (s.main = .spawn 0 ∨ s.main = .receive))
    (h : exec [] K client s schedule = some s') :
    s'.tasks = [] ∧ (s'.main = .spawn 0 ∨ s'.main = .receive) := by
  induction schedule generalizing s with
  | nil =>
    simp only [exec, Option.some.injEq] at h
    subst h
    exact hs
  | cons a rest ih =>
    unfold exec at h
    cases hst : step [] K client s a with
    | none => rw [hst] at h; simp at h
    | some mid =>
      rw [hst] at h
      refine ih ?_ h
      obtain ⟨ht0, hm0⟩ := hs
      cases Step_of_step hst with
      | spawnTask i url hp hm hu => simp at hu
      | spawnEnd i hp hm hu => exact ⟨ht0, Or.inr rfl⟩
      | acquireClosed j t hp ht hpc hm => rw [ht0] at ht; simp at ht
      | acquire j t hp ht hpc hm hk => rw [ht0] at ht; simp at ht
      | call j t hp ht hpc => rw [ht0] at ht; simp at ht
      | getErr j t e hp ht hpc he => rw [ht0] at ht; simp at ht
      | getNil j t hp ht hpc he hr => rw [ht0] at ht; simp at ht
      | getOk j t res hp ht hpc he hr => rw [ht0] at ht; simp at ht
      | publish j t result hp ht hpc hm => rw [ht0] at ht; simp at ht
      | publishClosed j t result hp ht hpc hm => rw [ht0] at ht; simp at ht
      | checkReturn hp hm hl => rcases hm0 with h | h <;> rw [hm] at h <;> simp at h
      | checkLoop hp hm hl => rcases hm0 with h | h <;> rw [hm] at h <;> simp at h
      | release j t hp ht hpc hs => rw [ht0] at ht; simp at ht
      | releaseClosed j t hp ht hpc hs hm => rw [ht0] at ht; simp at ht

theorem BoundedParallelGet_empty (DefaultClient : GetClient) (K : Nat)
    (httpClient : Option GetClient) (schedule : List Action) :
    BoundedParallelGet DefaultClient [] K httpClient schedule = none := by
  cases hb : BoundedParallelGet DefaultClient [] K httpClient schedule with
  | none => rfl
  | some results =>
    obtain ⟨s, hex, hm, -⟩ := BoundedParallelGet_eq_some_iff.1 hb
    have := (exec_empty_not_returned schedule ⟨rfl, Or.inl rfl⟩ hex).2
    rw [hm] at this
    simp at this

theorem BoundedParallelGet_error (DefaultClient : GetClient) (urls : List String) (K : Nat)
    (httpClient : Option GetClient) (i : Nat) (u e : String) (hu : urls[i]? = some u)
    (he : ((selectClient DefaultClient httpClient).Get u).err = some e)
    (schedule : List Action) :
    BoundedParallelGet DefaultClient urls K httpClient schedule = none := by
  cases hb : BoundedParallelGet DefaultClient urls K httpClient schedule with
  | none => rfl
  | some results =>
    obtain ⟨s, hex, hm, -⟩ := BoundedParallelGet_eq_some_iff.1 hb
    exact absurd hm (Inv_not_returned_of_error (Inv_exec schedule (Inv_init _ _ _) hex) hu he)

/-- Claim C1, as amended. For at least one URL, at least one permit and a
client whose calls all return a response with a nil error: every schedule is
at most 7N+3 steps long, never panics, and can be continued until the caller
has returned, so that some schedule returns; and whatever list is returned has
exactly N results, whose indices are a permutation of 0..N-1, each holding
without error the response obtained for the URL of its index. -/
theorem BoundedParallelGet_returns_all (DefaultClient : GetClient) (urls : List String)
    (K : Nat) (httpClient : Option GetClient) (hN : urls ≠ []) (hK : 1 ≤ K)
    (hok : ∀ u ∈ urls, ∃ res,
      (selectClient DefaultClient httpClient).Get u = { res := some res, err := none }) :
    (∀ schedule s,
      exec urls K (selectClient DefaultClient httpClient) PoolState.init schedule = some s →
      schedule.length ≤ 7 * urls.length + 3 ∧ s.panicked = none ∧
      (s.main ≠ .returned →
        ∃ a s', step urls K (selectClient DefaultClient httpClient) s a = some s')) ∧
    (∃ schedule results,
      BoundedParallelGet DefaultClient urls K httpClient schedule = some results) ∧
    (∀ schedule results,
      BoundedParallelGet DefaultClient urls K httpClient schedule = some results →
      results.length = urls.length ∧
      (results.map HttpResult.Index).Perm (List.range urls.length) ∧
      ∀ r ∈ results, r.Err = none ∧
        ∃ u, urls[r.Index]? = some u ∧
          (selectClient DefaultClient httpClient).Get u
            = { res := some r.Res, err := none }) := by
  have inv0 := Inv_init urls K (selectClient DefaultClient httpClient)
  refine ⟨?_, ?_, ?_⟩
  · intro schedule s hex
    have inv := Inv_exec schedule inv0 hex
    have hp := exec_no_panic hok schedule inv0 rfl hex
    have hlen := exec_length_le schedule hex
    rw [remaining_init] at hlen
    exact ⟨by omega, hp, fun hm => Inv_progress inv hp hm hN hK⟩
  · obtain ⟨σ, s, hex, hm⟩ :=
      exec_reaches_returned hok hN hK _ PoolState.init inv0 rfl (le_refl _)
    exact ⟨σ, s.results, BoundedParallelGet_eq_some_iff.2 ⟨s, hex, hm, rfl⟩⟩
  · intro schedule results hb
    obtain ⟨s, hex, hm, hres⟩ := BoundedParallelGet_eq_some_iff.1 hb
    subst hres
    exact Inv_returned (Inv_exec schedule inv0 hex) hm

/-- Witness for C1: three URLs, two permits, every call answered with 200; the
schedule `demoSchedule` returns the three results, task 1 first. -/
theorem BoundedParallelGet_returns_all_witness :
    BoundedParallelGet okClient demoURLs 2 none demoSchedule
      = some [{ Index := 1, Res := { StatusCode := 200, Body := "http://b.test/fail" },
                Err := none },
              { Index := 2, Res := { StatusCode := 200, Body := "http://c.test/ok" },
                Err := none },
              { Index := 0, Res := { StatusCode := 200, Body := "http://a.test/ok" },
                Err := none }] ∧
    ([1, 2, 0] : List Nat).Perm (List.range 3) := by
  have h := BoundedParallelGet_returns_all okClient demoURLs 2 none (by decide) (by decide)
    (fun u _ => ⟨{ StatusCode := 200, Body := u }, rfl⟩)
  have hrun : BoundedParallelGet okClient demoURLs 2 none demoSchedule
      = some [{ Index := 1, Res := { StatusCode := 200, Body := "http://b.test/fail" },
                Err := none },
              { Index := 2, Res := { StatusCode := 200, Body := "http://c.test/ok" },
                Err := none },
              { Index := 0, Res := { StatusCode := 200, Body := "http://a.test/ok" },
                Err := none }] := by
    rfl
  exact ⟨hrun, (h.2.2 demoSchedule _ hrun).2.1⟩

/-- Counterexample to C1 as stated. A client whose only call returns, with an
error, makes the task panic: no schedule returns a list. And with no URL at
all no schedule returns the empty list either. -/
theorem BoundedParallelGet_not_always_returns :
    (timeoutClient.Get "http://b.test/fail" = { res := none, err := some "timeout" } ∧
      ¬ ∃ schedule results,
        BoundedParallelGet okClient ["http://b.test/fail"] 1 (some timeoutClient) schedule
          = some results) ∧
    (¬ ∃ schedule results, BoundedParallelGet okClient [] 1 none schedule = some results) := by
  refine ⟨⟨rfl, ?_⟩, ?_⟩
  · rintro ⟨schedule, results, h⟩
    rw [BoundedParallelGet_error okClient ["http://b.test/fail"] 1 (some timeoutClient) 0
      "http://b.test/fail" "timeout" rfl rfl schedule] at h
    exact absurd h (by simp)
  · rintro ⟨schedule, results, h⟩
    rw [BoundedParallelGet_empty] at h
    exact absurd h (by simp)

/-- Claim C2, as amended. When the call for the URL of index `i` fails with
error `e` and the call of every other index succeeds, no schedule returns a
result list. Every schedule is at most 7N+3 steps long; the only panic it can
reach is `panic(err)` with `e`, after which no step is taken; while it has not
panicked it can take a step; and every result collected has a nil Err. -/
theorem BoundedParallelGet_failure_panics (DefaultClient : GetClient) (urls : List String)
    (K : Nat) (httpClient : Option GetClient) (i : Nat) (u e : String) (hK : 1 ≤ K)
    (hu : urls[i]? = some u)
    (he : ((selectClient DefaultClient httpClient).Get u).err = some e)
    (hothers : ∀ j v, j ≠ i → urls[j]? = some v → ∃ res,
      (selectClient DefaultClient httpClient).Get v = { res := some res, err := none }) :
    (∀ schedule, BoundedParallelGet DefaultClient urls K httpClient schedule = none) ∧
    (∀ schedule s,
      exec urls K (selectClient DefaultClient httpClient) PoolState.init schedule = some s →
      schedule.length ≤ 7 * urls.length + 3 ∧
      (s.panicked = none ∨ s.panicked = some (.err e)) ∧
      (s.panicked = none →
        ∃ a s', step urls K (selectClient DefaultClient httpClient) s a = some s') ∧
      (s.panicked ≠ none →
        ∀ a, step urls K (selectClient DefaultClient httpClient) s a = none) ∧
      (∀ r ∈ s.results, r.Err = none)) := by
  have inv0 := Inv_init urls K (selectClient DefaultClient httpClient)
  have hN : urls ≠ [] := by
    intro h
    rw [h] at hu
    simp at hu
  refine ⟨BoundedParallelGet_error DefaultClient urls K httpClient i u e hu he, ?_⟩
  intro schedule s hex
  have inv := Inv_exec schedule inv0 hex
  have hlen := exec_length_le schedule hex
  rw [remaining_init] at hlen
  refine ⟨by omega, exec_panic_value hu he hothers schedule inv0 (Or.inl rfl) hex, ?_, ?_, ?_⟩
  · intro hp
    exact Inv_progress inv hp (Inv_not_returned_of_error inv hu he) hN hK
  · intro hp a
    cases hs : s.panicked with
    | none => exact absurd hs hp
    | some p => simp [step, hs]
  · intro r hr
    exact (inv.result_ok r hr).1

/-- Witness for C2 as amended: the scenario of the specification; once the call
of task 1 has returned the process has panicked with the timeout. -/
theorem BoundedParallelGet_failure_panics_witness :
    BoundedParallelGet okClient demoURLs 2 (some timeoutClient)
      (demoStart ++ [.getReturns 1]) = none ∧
    (exec demoURLs 2 timeoutClient PoolState.init (demoStart ++ [.getReturns 1])).map
      PoolState.panicked = some (some (.err "timeout")) := by
  have h := BoundedParallelGet_failure_panics okClient demoURLs 2 (some timeoutClient) 1
    "http://b.test/fail" "timeout" (by decide) rfl rfl
    (by
      intro j v hj hv
      have hjlt : j < 3 := by
        by_contra hge
        have hnone : demoURLs[j]? = none :=
          List.getElem?_eq_none (by simp [demoURLs]; omega)
        rw [hnone] at hv
        simp at hv
      have hj02 : j = 0 ∨ j = 2 := by omega
      rcases hj02 with rfl | rfl
      · simp only [demoURLs, List.getElem?_cons_zero, Option.some.injEq] at hv
        subst hv
        exact ⟨_, rfl⟩
      · simp only [demoURLs, List.getElem?_cons_succ, List.getElem?_cons_zero,
          Option.some.injEq] at hv
        subst hv
        exact ⟨_, rfl⟩)
  exact ⟨h.1 _, rfl⟩

/-- Counterexample to C2 as stated: in the scenario of the specification (three
URLs, two permits, the second URL timing out) no schedule returns three
results, or any; the schedule that lets the failing call return ends in a
panic, with no result collected. -/
theorem BoundedParallelGet_one_failure_no_result :
    (¬ ∃ schedule results,
      BoundedParallelGet okClient demoURLs 2 (some timeoutClient) schedule = some results) ∧
    (exec demoURLs 2 timeoutClient PoolState.init (demoStart ++ [.getReturns 1])).map
      (fun s => (s.panicked, s.results)) = some (some (.err "timeout"), []) := by
  refine ⟨?_, rfl⟩
  rintro ⟨schedule, results, h⟩
  rw [BoundedParallelGet_error okClient demoURLs 2 (some timeoutClient) 1
    "http://b.test/fail" "timeout" rfl rfl schedule] at h
  exact absurd h (by simp)

/-- Claim C3. In every state a schedule of `BoundedParallelGet` reaches, for
every list of URLs and every capacity K of the semaphore channel, the number
of tasks that have started `client.Get` and not yet had it return is at most
the number of values in the channel, which is at most K. -/
theorem inFlight_le_concurrencyLimit (urls : List String) (K : Nat) (client : GetClient)
    (schedule : List Action) (s : PoolState)
    (h : exec urls K client PoolState.init schedule = some s) :
    inFlight s ≤ s.semaphoreChan ∧ s.semaphoreChan ≤ K ∧ inFlight s ≤ K := by
  have inv := Inv_exec schedule (Inv_init urls K client) h
  have h1 := inFlight_le_semaphoreChan inv
  have h2 := inv.permits_le
  exact ⟨h1, h2, by omega⟩

/-- Witness for C3: after `demoStart` two of three tasks are in flight under
two permits, and the third cannot acquire. -/
theorem inFlight_le_concurrencyLimit_witness :
    (exec demoURLs 2 okClient PoolState.init demoStart).map inFlight = some 2 ∧
    exec demoURLs 2 okClient PoolState.init (demoStart ++ [.acquire 2]) = none ∧
    ∀ s, exec demoURLs 2 okClient PoolState.init demoStart = some s → inFlight s ≤ 2 :=
  ⟨rfl, rfl, fun s h => (inFlight_le_concurrencyLimit demoURLs 2 okClient demoStart s h).2.2⟩

/-- Claim C10. Every result in a list returned by `BoundedParallelGet`, and
every result collected on the way, has a nil Err and holds the response the
client returned for its URL, whatever the status code. A task whose call
returns a non-nil error panics with it: the step leaves tasks and results as
they were, so no result is built or published. -/
theorem BoundedParallelGet_results_no_error (DefaultClient : GetClient)
    (urls : List String) (K : Nat) (httpClient : Option GetClient) :
    (∀ schedule results,
      BoundedParallelGet DefaultClient urls K httpClient schedule = some results →
      ∀ r ∈ results, r.Err = none ∧
        ∃ u, urls[r.Index]? = some u ∧
          (selectClient DefaultClient httpClient).Get u
            = { res := some r.Res, err := none }) ∧
    (∀ schedule s,
      exec urls K (selectClient DefaultClient httpClient) PoolState.init schedule = some s →
      (∀ r ∈ s.results, r.Err = none) ∧
      ∀ j t e, s.panicked = none → s.tasks[j]? = some t → t.pc = .inGet →
        ((selectClient DefaultClient httpClient).Get t.url).err = some e →
        step urls K (selectClient DefaultClient httpClient) s (.getReturns j)
          = some { s with panicked := some (.err e) }) := by
  have inv0 := Inv_init urls K (selectClient DefaultClient httpClient)
  refine ⟨?_, ?_⟩
  · intro schedule results hb
    obtain ⟨s, hex, hm, hres⟩ := BoundedParallelGet_eq_some_iff.1 hb
    subst hres
    exact (Inv_returned (Inv_exec schedule inv0 hex) hm).2.2
  · intro schedule s hex
    have inv := Inv_exec schedule inv0 hex
    refine ⟨fun r hr => (inv.result_ok r hr).1, ?_⟩
    intro j t e hp ht hpc he
    exact step_of_Step (Step.getErr s j t e hp ht hpc he)

/-- Witness for C10: a 404 answer is returned as an ordinary result with a nil
Err. -/
theorem BoundedParallelGet_results_no_error_witness :
    BoundedParallelGet okClient ["http://a.test/missing"] 1 (some notFoundClient) soloSchedule
      = some [{ Index := 0, Res := { StatusCode := 404, Body := "not found" },
                Err := none }] ∧
    ∀ r ∈ [({ Index := 0, Res := { StatusCode := 404, Body := "not found" },
              Err := none } : HttpResult)], r.Err = none :=
  ⟨rfl, fun r hr =>
    ((BoundedParallelGet_results_no_error okClient ["http://a.test/missing"] 1
      (some notFoundClient)).1 soloSchedule _ rfl r hr).1⟩

end ModemStats
